import Mathlib

set_option maxRecDepth 100000

/-!
# Verification of the mcp-java-analyzer core

A shallow embedding of the analyzer in
`src/mcp_tools/java_analyzer/code_parser.py` and
`src/mcp_tools/java_analyzer/mcp_adapter.py`.

Modelling conventions:
* Python strings are `List Char`, restricted to ASCII (the analyzed inputs are
  Java sources and stack traces); the regex character classes `\w`, `\s`, `\d`
  are modelled by their ASCII meaning.
* Python dicts are insertion-ordered association lists (`alookup`/`ainsert`),
  Python sets are duplicate-free lists in insertion order (`sadd`).
* The hand-rolled scanners below implement exactly the concrete regular
  expressions of the source; each one is a deterministic reformulation of the
  backtracking search of Python's `re` on its fixed pattern.
-/

/-- ASCII word character: the regex class `\w` of the model. -/
def isWordChar (c : Char) : Bool := c.isAlpha || c.isDigit || c = '_'

/-- Character of the regex class `[\w\.]`. -/
def isWordDot (c : Char) : Bool := isWordChar c || c = '.'

/-- ASCII whitespace: the regex class `\s` of the model. -/
def isSpaceChar (c : Char) : Bool :=
  c = ' ' || c = '\t' || c = '\n' || c = '\r' || c = '\x0b' || c = '\x0c'

/-- Decimal value of a digit string, Python's `int(...)`. -/
def digitsToNat (l : List Char) : Nat :=
  l.foldl (fun a c => a * 10 + (c.toNat - '0'.toNat)) 0

/-- Python dict lookup on an insertion-ordered association list. -/
def alookup {α β : Type} [DecidableEq α] : List (α × β) → α → Option β
  | [], _ => none
  | e :: m, k => if k = e.1 then some e.2 else alookup m k

/-- Python dict assignment `m[k] = v`: update the first binding of `k` in
place (keeping its position), else append a new binding. -/
def ainsert {α β : Type} [DecidableEq α] : List (α × β) → α → β → List (α × β)
  | [], k, v => [(k, v)]
  | e :: m, k, v => if k = e.1 then (k, v) :: m else e :: ainsert m k v

/-- Python `set.add` on a list kept duplicate-free in insertion order. -/
def sadd {α : Type} [DecidableEq α] (s : List α) (a : α) : List α :=
  if a ∈ s then s else s ++ [a]

/-- The keys of an association list, in order. -/
def akeys {α β : Type} (m : List (α × β)) : List α := m.map Prod.fst

/-- One stack frame extracted by `parse_stacktrace` (code_parser.py:51-58). -/
structure StackFrame where
  class_name : List Char
  method_name : List Char
  file_name : List Char
  line_number : Nat
deriving DecidableEq, Repr

/-- Match one literal character at the head of the input. -/
def expectChar (c : Char) : List Char → Option (List Char)
  | [] => none
  | x :: r => if x = c then some r else none

/-- Literal-prefix test (a regex literal matched at the current position). -/
def leadsWith : List Char → List Char → Bool
  | [], _ => true
  | _ :: _, [] => false
  | p :: ps, c :: cs => p = c && leadsWith ps cs

/-- Match a fixed regex literal at the head of the input. -/
def expectLit (s : List Char) (l : List Char) : Option (List Char) :=
  if leadsWith s l then some (l.drop s.length) else none

/-- A `cls*` run: skip the maximal run of characters of the class. -/
def skipClass (p : Char → Bool) (l : List Char) : List Char := l.dropWhile p

/-- A `cls+` run: the maximal nonempty run of characters of the class,
returned with the remainder. -/
def grabClass1 (p : Char → Bool) (l : List Char) : Option (List Char × List Char) :=
  if l.takeWhile p = [] then none else some (l.takeWhile p, l.dropWhile p)

/-- Resolve the run of `[\w.]` characters matched by `([\w\.]+)\.(\w+)` the way
the backtracking engine does: the method group is the maximal word-only suffix
of the run, the class group the nonempty part before the separating dot. -/
def splitLastSeg (run : List Char) : Option (List Char × List Char) :=
  let mrev := run.reverse.takeWhile isWordChar
  match run.reverse.dropWhile isWordChar with
  | [] => none
  | c :: cs =>
    if c = '.' ∧ mrev ≠ [] ∧ cs ≠ [] then some (cs.reverse, mrev.reverse)
    else none

/-- One attempted match of the frame pattern
`at\s+([\w\.]+)\.(\w+)\(([\w\.]+):(\d+)\)` (code_parser.py:48) at the head of
`l`; on success, the frame together with the input remaining after the match.
Every sub-run is forced to be maximal because the character that must follow it
lies outside its class, so the backtracking search is deterministic; the only
backtracking left, the split of the dotted run between the two groups, is
resolved by `splitLastSeg`. -/
def matchFrameAt (l : List Char) : Option (StackFrame × List Char) :=
  (expectLit "at".data l).bind fun r1 =>
  (grabClass1 isSpaceChar r1).bind fun wr =>
  (splitLastSeg (wr.2.takeWhile isWordDot)).bind fun cm =>
  (expectChar '(' (wr.2.dropWhile isWordDot)).bind fun r3 =>
  (grabClass1 isWordDot r3).bind fun fr =>
  (expectChar ':' fr.2).bind fun r5 =>
  (grabClass1 Char.isDigit r5).bind fun dr =>
  (expectChar ')' dr.2).bind fun r7 =>
  some (⟨cm.1, cm.2, fr.1, digitsToNat dr.1⟩, r7)

/-- Fuelled left-to-right scan; `scanFrames` supplies enough fuel. -/
def scanFramesAux : Nat → List Char → List StackFrame
  | 0, _ => []
  | _ + 1, [] => []
  | fuel + 1, c :: cs =>
    match matchFrameAt (c :: cs) with
    | some (fr, rem) => fr :: scanFramesAux fuel rem
    | none => scanFramesAux fuel cs

/-- `re.findall` of the frame pattern: leftmost, non-overlapping matches in
text order (code_parser.py:49). -/
def scanFrames (l : List Char) : List StackFrame := scanFramesAux l.length l

/-- The three suffixes of the exception-line pattern (code_parser.py:34). -/
def excSuffixes : List (List Char) := ["Exception".data, "Error".data, "Throwable".data]

/-- Whether `run` decomposes as `P ++ S` with `P` nonempty in `[\w.]` and `S`
one of the exception suffixes: the condition under which the anchored group
`([\w\.]+(?:Exception|Error|Throwable))` consumes the whole run. -/
def endsWithExcSuffix (run : List Char) : Bool :=
  excSuffixes.any fun s => decide (s.length < run.length) && s.isSuffixOf run

/-- Match `([\w\.]+(?:Exception|Error|Throwable)): (.+)` at the head of `l`,
returning (exception type, message). -/
def matchExcFullAt (l : List Char) : Option (List Char × List Char) :=
  let run := l.takeWhile isWordDot
  if endsWithExcSuffix run then
    match l.dropWhile isWordDot with
    | ':' :: ' ' :: r =>
      let msg := r.takeWhile fun c => c ≠ '\n'
      if msg = [] then none else some (run, msg)
    | _ => none
  else none

/-- Greedy resolution of `[\w\.]+(?:Exception|Error|Throwable)` inside the
maximal `[\w.]` run: the largest split point whose remainder starts with one of
the suffixes wins. -/
def simpleExcGo (run : List Char) : Nat → Option (List Char)
  | 0 => none
  | j + 1 =>
    match excSuffixes.find? fun s => s.isPrefixOf (run.drop (j + 1)) with
    | some s => some (run.take (j + 1) ++ s)
    | none => simpleExcGo run j

/-- Match `[\w\.]+(?:Exception|Error|Throwable)` at the head of `l`
(code_parser.py:42), returning the matched group. -/
def matchExcSimpleAt (l : List Char) : Option (List Char) :=
  let run := l.takeWhile isWordDot
  simpleExcGo run run.length

/-- `re.search` with `re.MULTILINE` of a `^`-anchored pattern: try the start of
the text, then the position after each newline, leftmost first. -/
def searchLinesAux {α : Type} (f : List Char → Option α) : List Char → Option α
  | [] => none
  | c :: rest =>
    if c = '\n' then (f rest).orElse fun _ => searchLinesAux f rest
    else searchLinesAux f rest

/-- Multiline anchored search over the whole text. -/
def searchLines {α : Type} (f : List Char → Option α) (l : List Char) : Option α :=
  (f l).orElse fun _ => searchLinesAux f l

/-- Result of `parse_stacktrace` (code_parser.py:27-31). -/
structure ExceptionInfo where
  exception_type : List Char
  message : List Char
  frames : List StackFrame
deriving DecidableEq, Repr

/-- `JavaAnalyzer.parse_stacktrace` (code_parser.py:18-60). -/
def parse_stacktrace (stacktrace : List Char) : ExceptionInfo :=
  let tm : List Char × List Char :=
    match searchLines matchExcFullAt stacktrace with
    | some p => p
    | none =>
      match searchLines matchExcSimpleAt stacktrace with
      | some t => (t, [])
      | none => ([], [])
  ⟨tm.1, tm.2, scanFrames stacktrace⟩

/-- The sample NullPointerException trace of the spec (§8) and the tests. -/
def npeTrace : List Char :=
  ("java.lang.NullPointerException: Cannot invoke \"String.trim()\" because \"input\" is null\n"
   ++ "    at com.example.parser.JsonParser.parse(JsonParser.java:42)\n"
   ++ "    at com.example.api.DataController.processJson(DataController.java:78)\n"
   ++ "    at com.example.api.DataController.handleRequest(DataController.java:31)").data

/-- A registered method, the value stored in `method_map`
(code_parser.py:119-123). -/
structure MethodInfo where
  class_name : List Char
  method_name : List Char
  file_path : List Char
deriving DecidableEq, Repr

/-- The mutable maps of a `JavaAnalyzer` instance (code_parser.py:13-16). -/
structure AnalyzerState where
  class_map : List (List Char × List Char)
  method_map : List (List Char × MethodInfo)
  call_graph : List (List Char × List (List Char))
deriving DecidableEq, Repr

/-- The maps of a freshly constructed `JavaAnalyzer`. -/
def initState : AnalyzerState := ⟨[], [], []⟩

/-- A call expression as the external `javalang` parser reports it:
`MethodInvocation.qualifier` (`[]` when absent or empty, both falsy in the
`if call.qualifier` check) and `MethodInvocation.member`. -/
structure JCall where
  qualifier : List Char
  member : List Char
deriving DecidableEq, Repr

/-- A method declaration as the indexer consumes it: its name and the call
expressions collected by walking its body. -/
structure JMethod where
  name : List Char
  calls : List JCall
deriving DecidableEq, Repr

/-- A directly declared top-level class with its methods. -/
structure JClass where
  name : List Char
  methods : List JMethod
deriving DecidableEq, Repr

/-- The parts of a parsed compilation unit the indexer reads: the package name
(`[]` when the file has none) and its `ClassDeclaration` types. Produced by the
external `javalang` parser, a boundary of this model. -/
structure JFile where
  packageName : List Char
  classes : List JClass
deriving DecidableEq, Repr

/-- `call_graph[k].add v` on an entry already present (code_parser.py:171). -/
def cgAdd : List (List Char × List (List Char)) → List Char → List Char →
    List (List Char × List (List Char))
  | [], _, _ => []
  | e :: m, k, v => if k = e.1 then (e.1, sadd e.2 v) :: m else e :: cgAdd m k v

/-- `JavaAnalyzer._process_method_calls` (code_parser.py:131-171). -/
def process_method_calls (st : AnalyzerState) (class_name : List Char) (m : JMethod) :
    AnalyzerState :=
  let method_key := class_name ++ '.' :: m.name
  let cg := match alookup st.call_graph method_key with
    | some _ => st.call_graph
    | none => st.call_graph ++ [(method_key, [])]
  let cg := m.calls.foldl
    (fun g c =>
      if c.qualifier ≠ [] then cgAdd g method_key (c.qualifier ++ '.' :: c.member) else g) cg
  { st with call_graph := cg }

/-- Per-class registration step of `_process_java_content`
(code_parser.py:103-126). -/
def processClass (package_name file_path : List Char) (st : AnalyzerState) (c : JClass) :
    AnalyzerState :=
  let full_class_name :=
    if package_name ≠ [] then package_name ++ '.' :: c.name else c.name
  let st1 := { st with class_map := ainsert st.class_map full_class_name file_path }
  c.methods.foldl (fun st m =>
    let key := full_class_name ++ '.' :: m.name
    let st2 :=
      { st with method_map := ainsert st.method_map key ⟨full_class_name, m.name, file_path⟩ }
    process_method_calls st2 full_class_name m) st1

/-- `JavaAnalyzer._process_java_content` (code_parser.py:89-129) applied to an
already parsed tree. -/
def process_java_content (st : AnalyzerState) (f : JFile) (file_path : List Char) :
    AnalyzerState :=
  f.classes.foldl (processClass f.packageName file_path) st

/-- `JavaAnalyzer.process_java_files` (code_parser.py:62-87). A file is carried
as its path together with its parse result; `none` stands for a file whose read
or parse failed, which the source logs and skips. -/
def process_java_files (st : AnalyzerState) (files : List (List Char × Option JFile)) :
    AnalyzerState :=
  files.foldl (fun st pf => match pf.2 with
    | some f => process_java_content st f pf.1
    | none => st) st

/-- Accumulator of the `dfs` closure in `find_related_methods`: the `visited`
set in expansion order and the `related` dict in insertion order. -/
structure SearchAcc where
  visited : List (List Char)
  related : List (List Char × MethodInfo)
deriving DecidableEq, Repr

mutual
/-- The recursive `dfs` of `find_related_methods` (code_parser.py:262-280).
The fuel is `depth + 1 - current_depth`, so fuel `0` is exactly the guard
`current_depth > depth`. -/
def dfs (mm : List (List Char × MethodInfo)) (cg : List (List Char × List (List Char))) :
    Nat → List Char → SearchAcc → SearchAcc
  | 0, _, acc => acc
  | fuel + 1, key, acc =>
    if key ∈ acc.visited then acc
    else
      let acc1 := { acc with visited := acc.visited ++ [key] }
      let acc2 := match alookup mm key with
        | some info => { acc1 with related := acc1.related ++ [(key, info)] }
        | none => acc1
      let acc3 := match alookup cg key with
        | some callees => dfsForward mm cg fuel callees acc2
        | none => acc2
      dfsBackward mm cg fuel key cg acc3
termination_by fuel _ _ => (fuel, 0, 0)

/-- Forward expansion of `dfs`: recurse on each recorded callee in order. -/
def dfsForward (mm : List (List Char × MethodInfo))
    (cg : List (List Char × List (List Char))) :
    Nat → List (List Char) → SearchAcc → SearchAcc
  | _, [], acc => acc
  | fuel, k :: ks, acc => dfsForward mm cg fuel ks (dfs mm cg fuel k acc)
termination_by fuel ks _ => (fuel, 1, ks.length)

/-- Backward expansion of `dfs`: recurse on every caller whose recorded callee
set contains the current key, in call-graph order. -/
def dfsBackward (mm : List (List Char × MethodInfo))
    (cg : List (List Char × List (List Char))) :
    Nat → List Char → List (List Char × List (List Char)) → SearchAcc → SearchAcc
  | _, _, [], acc => acc
  | fuel, key, e :: es, acc =>
    dfsBackward mm cg fuel key es (if key ∈ e.2 then dfs mm cg fuel e.1 acc else acc)
termination_by fuel _ es _ => (fuel, 1, es.length)
end

/-- `JavaAnalyzer.find_related_methods` (code_parser.py:247-284); the returned
dict in insertion order. -/
def find_related_methods (st : AnalyzerState) (class_name method_name : List Char)
    (depth : Nat) : List (List Char × MethodInfo) :=
  (dfs st.method_map st.call_graph (depth + 1) (class_name ++ '.' :: method_name)
    ⟨[], []⟩).related

/-- Try a fixed-pattern matcher at every start position: Python's `re.search`
restricted to success/failure. -/
def searchB (f : List Char → Bool) : List Char → Bool
  | [] => f []
  | c :: cs => f (c :: cs) || searchB f cs

/-- Match one operand of a null-check pattern: either a nonempty `\w+` run or
the literal `null`, as selected by `isVar`. -/
def expectOperand (isVar : Bool) (l : List Char) : Option (List Char) :=
  if isVar then (grabClass1 isWordChar l).map Prod.snd
  else expectLit "null".data l

/-- Match `if\s*\(\s*A\s*OP\s*B\s*\)` at the head of `l`, where `OP` is the
two-character comparison operator and (`A`, `B`) is a nonempty `\w+` run and
the literal `null` in the order selected by `varFirst`: the four null-check
patterns of `check_null_handling` (code_parser.py:375-378). Every `\s*`/`\w+`
sub-run is forced to be maximal because the character that must follow it is
outside its class, so the backtracking search is deterministic. -/
def matchIfNullCmpAt (op : List Char) (varFirst : Bool) (l : List Char) : Bool :=
  ((expectLit "if".data l).bind fun r1 =>
   (expectChar '(' (skipClass isSpaceChar r1)).bind fun r2 =>
   (expectOperand varFirst (skipClass isSpaceChar r2)).bind fun r3 =>
   (expectLit op (skipClass isSpaceChar r3)).bind fun r4 =>
   (expectOperand (!varFirst) (skipClass isSpaceChar r4)).bind fun r5 =>
   expectChar ')' (skipClass isSpaceChar r5)).isSome

/-- `JavaAnalyzer.check_null_handling` (code_parser.py:365-387): the six
null-check patterns, searched anywhere in the text. -/
def check_null_handling (java_code : List Char) : Bool :=
  searchB (matchIfNullCmpAt "==".data true) java_code ||
  searchB (matchIfNullCmpAt "==".data false) java_code ||
  searchB (matchIfNullCmpAt "!=".data true) java_code ||
  searchB (matchIfNullCmpAt "!=".data false) java_code ||
  searchB (leadsWith "Objects.requireNonNull".data) java_code ||
  searchB (leadsWith "Optional.".data) java_code

/-- Match `try\s*\{` at the head of `l` (code_parser.py:352). -/
def matchTryAt (l : List Char) : Bool :=
  match l with
  | 't' :: 'r' :: 'y' :: r =>
    match r.dropWhile isSpaceChar with
    | '\x7b' :: _ => true
    | _ => false
  | _ => false

/-- Match `catch\s*\(` at the head of `l` (code_parser.py:353). -/
def matchCatchAt (l : List Char) : Bool :=
  match l with
  | 'c' :: 'a' :: 't' :: 'c' :: 'h' :: r =>
    match r.dropWhile isSpaceChar with
    | '(' :: _ => true
    | _ => false
  | _ => false

/-- Character of the regex class `[\w\.,\s]`. -/
def isThrowsListChar (c : Char) : Bool := isWordDot c || c = ',' || isSpaceChar c

/-- Match `throws\s+[\w\.,\s]+` at the head of `l` (code_parser.py:359).
Because `\s` is contained in `[\w\.,\s]`, the pattern matches exactly when the
literal is followed by a whitespace character and then any character of the
merged class. -/
def matchThrowsAt (l : List Char) : Bool :=
  match l with
  | 't' :: 'h' :: 'r' :: 'o' :: 'w' :: 's' :: r =>
    match r with
    | c :: d :: _ => isSpaceChar c && isThrowsListChar d
    | _ => false
  | _ => false

/-- `JavaAnalyzer.has_exception_handling` (code_parser.py:342-363). -/
def has_exception_handling (java_code : List Char) : Bool :=
  (searchB matchTryAt java_code && searchB matchCatchAt java_code) ||
  searchB matchThrowsAt java_code

/-- One increment of `reference_count[callee]` (mcp_adapter.py:280-282):
initialise to `0` when absent, then add one. -/
def rcInc : List (List Char × Nat) → List Char → List (List Char × Nat)
  | [], k => [(k, 1)]
  | e :: m, k => if k = e.1 then (e.1, e.2 + 1) :: m else e :: rcInc m k

/-- The caller tally of `_weight_methods` (mcp_adapter.py:277-282). -/
def referenceCount (cg : List (List Char × List (List Char))) : List (List Char × Nat) :=
  cg.foldl (fun rc e => e.2.foldl rcInc rc) []

/-- The weight of one method (`_weight_methods` loop body,
mcp_adapter.py:285-327). `days_diff` abstracts `datetime.fromisoformat`
composed with `(datetime.datetime.now() - commit_date).days` at the fixed
evaluation time: `none` when the date string does not parse (the `except`
branch), otherwise the signed day difference. A commit entry is a string-keyed
dict; the `commits[file_path]` truthiness test is emptiness of that dict. -/
def methodWeight (days_diff : List Char → Option Int)
    (commits : List (List Char × List (List Char × List Char)))
    (handling : List (List Char × (Bool × Bool)))
    (rc : List (List Char × Nat)) (key : List Char) (info : MethodInfo) : Nat :=
  let w : Nat := 0
  let w := match alookup commits info.file_path with
    | some cinfo =>
      if cinfo ≠ [] then
        match alookup cinfo "date".data with
        | some ds =>
          match days_diff ds with
          | some days => if days ≤ 30 then w + 3 else if days ≤ 90 then w + 2 else w + 1
          | none => w + 1
        | none => w
      else w
    | none => w
  let w := match alookup handling key with
    | some flags => (if flags.1 then w + 3 else w) + (if flags.2 then 2 else 0)
    | none => w
  match alookup rc key with
  | some count => if 5 ≤ count then w + 3 else if 2 ≤ count then w + 2 else w + 1
  | none => w

/-- Insert before the first entry of strictly smaller key: one step of the
stable descending sort `sorted(..., key=..., reverse=True)` performs. -/
def insertDesc {α : Type} (w : α → Nat) (x : α) : List α → List α
  | [] => [x]
  | y :: ys => if w y < w x then x :: y :: ys else y :: insertDesc w x ys

/-- Stable sort, descending in the key (any stable sort computes the same list,
so this insertion sort is extensionally Python's Timsort). -/
def sortDesc {α : Type} (w : α → Nat) (l : List α) : List α :=
  l.foldl (fun acc x => insertDesc w x acc) []

/-- `JavaAnalysisTool._weight_methods` (mcp_adapter.py:263-332): the sorted
weighted dict in its final insertion order. -/
def weight_methods (days_diff : List Char → Option Int) (st : AnalyzerState)
    (methods : List (List Char × MethodInfo))
    (commits : List (List Char × List (List Char × List Char)))
    (handling : List (List Char × (Bool × Bool))) :
    List (List Char × (MethodInfo × Nat)) :=
  let rc := referenceCount st.call_graph
  let weighted := methods.map fun km =>
    (km.1, (km.2, methodWeight days_diff commits handling rc km.1 km.2))
  sortDesc (fun x => x.2.2) weighted

/-- One entry of the `related_methods` output list (mcp_adapter.py:163-174). -/
structure RelatedMethod where
  cls : List Char
  mth : List Char
  weight : Nat
  file_path : List Char
  has_exception_handling_flag : Bool
  has_null_check_flag : Bool
deriving DecidableEq, Repr

/-- The result dict of `analyze_error`; a field the corresponding Python dict
lacks is `none`. -/
structure AnalyzeResult where
  status : List Char
  message : Option (List Char)
  exception_info : Option ExceptionInfo
  root_cause : Option (List Char × List Char × Nat)
  related_methods : Option (List RelatedMethod)
  exception_handlers : Option (List MethodInfo)
deriving Repr

/-- `JavaAnalysisTool.analyze_error` (mcp_adapter.py:37-185) through its
degenerate branches. The collaborator calls are explicit inputs: `clone` is the
outcome of `GitScanner.clone_repo`, `java_files` the Java files found under the
cloned tree, each with its parse result. Everything the source does after the
degenerate branches (its steps 5-10) is the continuation `rest`, which receives
the parsed exception info, the root frame and the file list; the properties
proved about this definition hold for every continuation. -/
def analyze_error
    (rest : ExceptionInfo → StackFrame → List (List Char × Option JFile) → AnalyzeResult)
    (clone : Except (List Char) Unit)
    (java_files : List (List Char × Option JFile))
    (stacktrace : List Char) : AnalyzeResult :=
  let exception_info := parse_stacktrace stacktrace
  match exception_info.frames with
  | [] =>
    { status := "error".data, message := some "无法解析堆栈信息，请确保堆栈格式正确".data,
      exception_info := none, root_cause := none, related_methods := none,
      exception_handlers := none }
  | root_frame :: _ =>
    match clone with
    | .error e =>
      { status := "error".data, message := some ("克隆仓库失败: ".data ++ e),
        exception_info := none, root_cause := none, related_methods := none,
        exception_handlers := none }
    | .ok _ =>
      if java_files = [] then
        { status := "warning".data, message := some "仓库中未找到Java文件".data,
          exception_info := some exception_info, root_cause := none,
          related_methods := none, exception_handlers := none }
      else rest exception_info root_frame java_files

/-- Every character of `l` lies in the class `p`. -/
def AllClass (p : Char → Bool) (l : List Char) : Prop := ∀ c ∈ l, p c = true

/-- Declarative shape of one null-comparison pattern: `if`, optional
whitespace, `(`, optional whitespace, the two operands around the comparison
operator with optional whitespace, optional whitespace, `)` — where one operand
is a nonempty identifier and the other the literal `null`, in the order
selected by `varFirst`. -/
def NullCmpShape (op : List Char) (varFirst : Bool) (t : List Char) : Prop :=
  ∃ s1 s2 v s3 s4 s5 rest : List Char,
    AllClass isSpaceChar s1 ∧ AllClass isSpaceChar s2 ∧ AllClass isSpaceChar s3 ∧
    AllClass isSpaceChar s4 ∧ AllClass isSpaceChar s5 ∧
    v ≠ [] ∧ AllClass isWordChar v ∧
    t = 'i' :: 'f' :: (s1 ++ '(' :: (s2 ++ ((if varFirst then v else "null".data) ++
        (s3 ++ (op ++ (s4 ++ ((if varFirst then "null".data else v) ++
        (s5 ++ ')' :: rest))))))))

/-- The null-check classification as the claim states it, amended to the
if-guarded comparison shapes the code actually recognises: some position of
the text starts one of the four `if (… null …)` comparison shapes, or the text
contains `Objects.requireNonNull` or `Optional.` as a substring. -/
def NullCheckAmended (code : List Char) : Prop :=
  (∃ i, NullCmpShape "==".data true (code.drop i)) ∨
  (∃ i, NullCmpShape "==".data false (code.drop i)) ∨
  (∃ i, NullCmpShape "!=".data true (code.drop i)) ∨
  (∃ i, NullCmpShape "!=".data false (code.drop i)) ∨
  (∃ i r, code.drop i = "Objects.requireNonNull".data ++ r) ∨
  (∃ i r, code.drop i = "Optional.".data ++ r)

/-- A two-entry cyclic call graph `A.a → B.b → A.a` (mutual recursion). -/
def cycleCG : List (List Char × List (List Char)) :=
  [("A.a".data, ["B.b".data]), ("B.b".data, ["A.a".data])]

/-- A method map holding only `A.a`. -/
def soloMM : List (List Char × MethodInfo) :=
  [("A.a".data, ⟨"A".data, "a".data, "A.java".data⟩)]

/-- A call graph whose only edge leads to the literal callee text `obj.foo`,
a key no indexed method bears. -/
def literalCG : List (List Char × List (List Char)) :=
  [("A.a".data, ["obj.foo".data])]

/-- Request 1 of the lifecycle scenario: a file declaring class `A` with
method `m`. -/
def fileA : JFile := ⟨[], [⟨"A".data, [⟨"m".data, []⟩]⟩]⟩

/-- Request 2 of the lifecycle scenario: a file declaring class `B` with
method `n`. -/
def fileB : JFile := ⟨[], [⟨"B".data, [⟨"n".data, []⟩]⟩]⟩

/-- The per-method indexing step of `processClass`. -/
def methodStep (full_class_name file_path : List Char) (st : AnalyzerState) (m : JMethod) :
    AnalyzerState :=
  process_method_calls
    { st with method_map := ainsert st.method_map (full_class_name ++ '.' :: m.name) ⟨full_class_name, m.name, file_path⟩ }
    full_class_name m

/-- The method-map/call-graph invariant: every registered method key has a
call-graph entry. -/
def MKeysSub (st : AnalyzerState) : Prop :=
  ∀ k, k ∈ akeys st.method_map → k ∈ akeys st.call_graph

/-- The recency factor as the spec's ranking table states it: 3 within 30
days, 2 within 90, 1 when older or unparsable, 0 when the file has no commit
metadata entry. The cases the claim leaves open (an entry that is an empty
dict or has no date field) score 0, as the code does. -/
def recencyScore (days_diff : List Char → Option Int)
    (commits : List (List Char × List (List Char × List Char))) (path : List Char) : Nat :=
  match alookup commits path with
  | none => 0
  | some cinfo =>
    match alookup cinfo "date".data with
    | none => 0
    | some ds =>
      match days_diff ds with
      | some days => if days ≤ 30 then 3 else if days ≤ 90 then 2 else 1
      | none => 1

/-- The handling factor as the spec's ranking table states it: 3 for a body
with try/catch or throws, 2 more for a null-check idiom; a method whose body
flags were never recorded scores 0. -/
def handlingScore (handling : List (List Char × (Bool × Bool))) (key : List Char) : Nat :=
  match alookup handling key with
  | none => 0
  | some flags => (if flags.1 then 3 else 0) + (if flags.2 then 2 else 0)

/-- The fan-in factor as the spec's ranking table states it, over the number
of distinct callers: the call-graph entries whose callee set contains the
key. -/
def faninScore (cg : List (List Char × List (List Char))) (key : List Char) : Nat :=
  let callers := (cg.filter fun e => decide (key ∈ e.2)).length
  if 5 ≤ callers then 3 else if 2 ≤ callers then 2 else if 1 ≤ callers then 1 else 0

/-- The fan-in contribution as the code computes it from the tally. -/
def rcScore (rc : List (List Char × Nat)) (key : List Char) : Nat :=
  match alookup rc key with
  | none => 0
  | some count => if 5 ≤ count then 3 else if 2 ≤ count then 2 else 1

/-- Total number of occurrences of `key` over all callee sets of `cg`. -/
def totalCount (cg : List (List Char × List (List Char))) (key : List Char) : Nat :=
  (cg.map fun e => e.2.count key).sum

/-! ## C8: indexing as a sequence of primitive map operations, and replay -/

/-- One primitive mutation of the analyzer maps, in the order
`_process_java_content` performs them. -/
inductive IndexOp : Type
  | insClass (k v : List Char)
  | insMethod (k : List Char) (v : MethodInfo)
  | initCG (k : List Char)
  | addEdge (k v : List Char)
deriving DecidableEq, Repr

/-- The call-graph entry initialisation of `_process_method_calls`
(code_parser.py:142-143). -/
def cgInit (g : List (List Char × List (List Char))) (k : List Char) :
    List (List Char × List (List Char)) :=
  match alookup g k with
  | some _ => g
  | none => g ++ [(k, [])]

def applyOp (st : AnalyzerState) : IndexOp → AnalyzerState
  | .insClass k v => { st with class_map := ainsert st.class_map k v }
  | .insMethod k v => { st with method_map := ainsert st.method_map k v }
  | .initCG k => { st with call_graph := cgInit st.call_graph k }
  | .addEdge k v => { st with call_graph := cgAdd st.call_graph k v }

def applyOps (st : AnalyzerState) (l : List IndexOp) : AnalyzerState := l.foldl applyOp st

/-- The operations `processClass` performs for one method. -/
def opsOfMethod (fc fp : List Char) (m : JMethod) : List IndexOp :=
  .insMethod (fc ++ '.' :: m.name) ⟨fc, m.name, fp⟩ ::
  .initCG (fc ++ '.' :: m.name) ::
  m.calls.filterMap fun c =>
    if c.qualifier ≠ [] then
      some (.addEdge (fc ++ '.' :: m.name) (c.qualifier ++ '.' :: c.member))
    else none

/-- The operations `processClass` performs for one class. -/
def opsOfClass (pn fp : List Char) (c : JClass) : List IndexOp :=
  .insClass (if pn ≠ [] then pn ++ '.' :: c.name else c.name) fp ::
  (c.methods.map (opsOfMethod (if pn ≠ [] then pn ++ '.' :: c.name else c.name) fp)).flatten

/-- The operations `_process_java_content` performs for one file. -/
def opsOfFile (f : JFile) (fp : List Char) : List IndexOp :=
  (f.classes.map (opsOfClass f.packageName fp)).flatten

/-- The operations `process_java_files` performs for a file list. -/
def opsOfFiles (files : List (List Char × Option JFile)) : List IndexOp :=
  (files.map fun pf => match pf.2 with
    | some f => opsOfFile f pf.1
    | none => []).flatten

/-- The effect of one operation on the class map alone. -/
def cmStep (m : List (List Char × List Char)) : IndexOp → List (List Char × List Char)
  | .insClass k v => ainsert m k v
  | _ => m

/-- The effect of one operation on the method map alone. -/
def mmStep (m : List (List Char × MethodInfo)) : IndexOp → List (List Char × MethodInfo)
  | .insMethod k v => ainsert m k v
  | _ => m

/-- The effect of one operation on the call graph alone. -/
def cgStep (g : List (List Char × List (List Char))) : IndexOp →
    List (List Char × List (List Char))
  | .initCG k => cgInit g k
  | .addEdge k v => cgAdd g k v
  | _ => g

/-! ### Replay of a dictionary write sequence is the identity -/

/-- A dictionary step: either write one pair or do nothing. -/
def wStep {α β : Type} [DecidableEq α] (m : List (α × β)) : Option (α × β) → List (α × β)
  | some kv => ainsert m kv.1 kv.2
  | none => m

/-- Some write in `ws` binds the key `k`. -/
def WritesKey {α β : Type} (ws : List (Option (α × β))) (k : α) : Prop :=
  ∃ v, some (k, v) ∈ ws

/-- The class-map write (if any) of one operation. -/
def classWrite : IndexOp → Option (List Char × List Char)
  | .insClass k v => some (k, v)
  | _ => none

/-- The method-map write (if any) of one operation. -/
def methodWrite : IndexOp → Option (List Char × MethodInfo)
  | .insMethod k v => some (k, v)
  | _ => none

/-- Well-formed operation lists: every `addEdge k _` is preceded by an
`initCG k` (or `k` is already among the `seen` initialised keys) — exactly
the discipline `_process_method_calls` follows. -/
def WFcg : List IndexOp → List (List Char) → Prop
  | [], _ => True
  | .addEdge k _ :: t, seen => k ∈ seen ∧ WFcg t seen
  | .initCG k :: t, seen => WFcg t (k :: seen)
  | .insClass _ _ :: t, seen => WFcg t seen
  | .insMethod _ _ :: t, seen => WFcg t seen

/-! ### C2: declarative frame shape and the findall characterisation -/

/-- Spec-side declarative shape of one well-formed frame substring
`at<spaces><class>.<method>(<file>:<line>)`, the language of the regex
`at\s+([\w\.]+)\.(\w+)\(([\w\.]+):(\d+)\)` together with the group values the
backtracking engine extracts from it. -/
def FrameShape (fr : StackFrame) (t : List Char) : Prop :=
  ∃ sp ds : List Char,
    sp ≠ [] ∧ AllClass isSpaceChar sp ∧
    fr.class_name ≠ [] ∧ AllClass isWordDot fr.class_name ∧
    fr.method_name ≠ [] ∧ AllClass isWordChar fr.method_name ∧
    fr.file_name ≠ [] ∧ AllClass isWordDot fr.file_name ∧
    ds ≠ [] ∧ AllClass Char.isDigit ds ∧ fr.line_number = digitsToNat ds ∧
    t = 'a' :: 't' :: (sp ++ (fr.class_name ++ ('.' :: (fr.method_name ++
      ('(' :: (fr.file_name ++ (':' :: (ds ++ [')']))))))))

/-- `fr` is the frame-shape match beginning at offset `q` of `l`. -/
def FrameAtPos (l : List Char) (q : Nat) (fr : StackFrame) : Prop :=
  ∃ pre t rest : List Char, pre.length = q ∧ FrameShape fr t ∧ l = pre ++ (t ++ rest)

/-- Some frame-shape match begins at offset `q` of `l`. -/
def StartsFrameAt (l : List Char) (q : Nat) : Prop := ∃ fr, FrameAtPos l q fr

/-- Ghost variant of `scanFramesAux` that also records the start offset of
every reported match. -/
def scanPosAux : Nat → Nat → List Char → List (Nat × StackFrame)
  | 0, _, _ => []
  | _ + 1, _, [] => []
  | fuel + 1, q, c :: cs =>
    match matchFrameAt (c :: cs) with
    | some (fr, rem) =>
      (q, fr) :: scanPosAux fuel (q + ((c :: cs).length - rem.length)) rem
    | none => scanPosAux fuel (q + 1) cs

/-! ## Basic facts about the scanning primitives -/

theorem length_dropWhile_le (p : Char → Bool) (l : List Char) :
    (l.dropWhile p).length ≤ l.length := by
  induction l with
  | nil => simp [List.dropWhile]
  | cons c cs ih =>
    rw [List.dropWhile_cons]
    split
    · exact Nat.le_trans ih (by simp)
    · simp

theorem splitWhile_eq {p : Char → Bool} :
    ∀ (a r : List Char), AllClass p a → (∀ c, r.head? = some c → p c = false) →
      (a ++ r).takeWhile p = a ∧ (a ++ r).dropWhile p = r := by
  intro a
  induction a with
  | nil =>
    intro r _ hr
    cases r with
    | nil => simp
    | cons c cs =>
      have hc := hr c rfl
      simp [List.takeWhile_cons, List.dropWhile_cons, hc]
  | cons x xs ih =>
    intro r ha hr
    have hx : p x = true := ha x (by simp)
    have h2 := ih r (fun c hc => ha c (by simp [hc])) hr
    simp [List.takeWhile_cons, List.dropWhile_cons, hx, h2.1, h2.2]

theorem takeWhile_all {p : Char → Bool} (l : List Char) : AllClass p (l.takeWhile p) :=
  fun _ hc => List.mem_takeWhile_imp hc

theorem dropWhile_head_false {p : Char → Bool} :
    ∀ (l : List Char) (c : Char), (l.dropWhile p).head? = some c → p c = false := by
  intro l
  induction l with
  | nil => intro c h; simp [List.dropWhile] at h
  | cons x xs ih =>
    intro c h
    rw [List.dropWhile_cons] at h
    by_cases hx : p x = true
    · exact ih c (by simpa [hx] using h)
    · rw [if_neg hx] at h
      simp only [List.head?_cons, Option.some.injEq] at h
      subst h
      exact Bool.eq_false_iff.mpr hx

theorem leadsWith_iff : ∀ (s l : List Char), leadsWith s l = true ↔ ∃ r, l = s ++ r := by
  intro s
  induction s with
  | nil => intro l; simp [leadsWith]
  | cons x xs ih =>
    intro l
    cases l with
    | nil => simp [leadsWith]
    | cons c cs =>
      simp only [leadsWith, Bool.and_eq_true, decide_eq_true_eq, ih cs, List.cons_append,
        List.cons.injEq]
      constructor
      · rintro ⟨hx, r, hr⟩; exact ⟨r, hx.symm, hr⟩
      · rintro ⟨r, hx, hr⟩; exact ⟨hx.symm, r, hr⟩

theorem searchB_iff (f : List Char → Bool) :
    ∀ l, searchB f l = true ↔ ∃ i, f (l.drop i) = true := by
  intro l
  induction l with
  | nil =>
    constructor
    · intro h; exact ⟨0, h⟩
    · rintro ⟨i, h⟩; simpa using h
  | cons c cs ih =>
    simp only [searchB, Bool.or_eq_true, ih]
    constructor
    · rintro (h | ⟨i, h⟩)
      · exact ⟨0, h⟩
      · exact ⟨i + 1, h⟩
    · rintro ⟨i, h⟩
      cases i with
      | zero => exact Or.inl h
      | succ j => exact Or.inr ⟨j, h⟩

theorem expectChar_eq_some {c : Char} :
    ∀ {l r : List Char}, expectChar c l = some r ↔ l = c :: r := by
  intro l r
  cases l with
  | nil => simp [expectChar]
  | cons x xs =>
    simp only [expectChar, List.cons.injEq]
    constructor
    · intro h
      by_cases hx : x = c
      · simp only [hx, if_true, Option.some.injEq] at h; exact ⟨hx, h⟩
      · simp [hx] at h
    · rintro ⟨hx, hr⟩; simp [hx, hr]

theorem expectLit_eq_some {s l r : List Char} : expectLit s l = some r ↔ l = s ++ r := by
  constructor
  · intro h
    by_cases hl : leadsWith s l = true
    · obtain ⟨t, ht⟩ := (leadsWith_iff s l).mp hl
      subst ht
      rw [expectLit, if_pos hl, List.drop_left, Option.some_inj] at h
      rw [h]
    · rw [expectLit, if_neg hl] at h
      exact absurd h (by simp)
  · intro h
    subst h
    have hl : leadsWith s (s ++ r) = true := (leadsWith_iff _ _).mpr ⟨r, rfl⟩
    rw [expectLit, if_pos hl, List.drop_left]

theorem grabClass1_eq_some {p : Char → Bool} {l v r : List Char} :
    grabClass1 p l = some (v, r) ↔
      v ≠ [] ∧ AllClass p v ∧ (∀ c, r.head? = some c → p c = false) ∧ l = v ++ r := by
  constructor
  · intro h
    by_cases htw : l.takeWhile p = []
    · rw [grabClass1, if_pos htw] at h
      exact absurd h (by simp)
    · rw [grabClass1, if_neg htw, Option.some_inj, Prod.mk.injEq] at h
      obtain ⟨hv, hr⟩ := h
      subst hv; subst hr
      exact ⟨htw, takeWhile_all l, dropWhile_head_false l,
        (List.takeWhile_append_dropWhile p l).symm⟩
  · rintro ⟨hne, hall, hhead, rfl⟩
    have hs := splitWhile_eq v r hall hhead
    rw [grabClass1, hs.1, hs.2, if_neg hne]

theorem skipClass_of_split {p : Char → Bool} {a r : List Char}
    (ha : AllClass p a) (hr : ∀ c, r.head? = some c → p c = false) :
    skipClass p (a ++ r) = r := (splitWhile_eq a r ha hr).2

theorem skipClass_decomp (p : Char → Bool) (l : List Char) :
    ∃ a, AllClass p a ∧ l = a ++ skipClass p l ∧
      (∀ c, (skipClass p l).head? = some c → p c = false) :=
  ⟨l.takeWhile p, takeWhile_all l, (List.takeWhile_append_dropWhile p l).symm,
    dropWhile_head_false l⟩

theorem word_not_space {c : Char} (h : isWordChar c = true) : isSpaceChar c = false := by
  by_contra hs
  rw [Bool.not_eq_false] at hs
  have hs' : c = ' ' ∨ c = '\t' ∨ c = '\n' ∨ c = '\r' ∨ c = '\x0b' ∨ c = '\x0c' := by
    simpa [isSpaceChar, or_assoc] using hs
  rcases hs' with h1 | h1 | h1 | h1 | h1 | h1 <;> subst h1 <;> exact absurd h (by decide)

theorem space_not_word {c : Char} (h : isSpaceChar c = true) : isWordChar c = false := by
  by_contra hw
  rw [Bool.not_eq_false] at hw
  rw [word_not_space hw] at h
  exact absurd h (by simp)

theorem expectOperand_true_eq_some {l r : List Char} :
    expectOperand true l = some r ↔
      ∃ v, v ≠ [] ∧ AllClass isWordChar v ∧
        (∀ c, r.head? = some c → isWordChar c = false) ∧ l = v ++ r := by
  simp only [expectOperand, if_pos]
  constructor
  · intro h
    rw [Option.map_eq_some'] at h
    obtain ⟨⟨v, r'⟩, hg, hr⟩ := h
    simp only at hr
    subst hr
    obtain ⟨hne, hall, hhead, hl⟩ := grabClass1_eq_some.mp hg
    exact ⟨v, hne, hall, hhead, hl⟩
  · rintro ⟨v, hne, hall, hhead, rfl⟩
    rw [grabClass1_eq_some.mpr ⟨hne, hall, hhead, rfl⟩]
    rfl

theorem expectOperand_false_eq (l : List Char) :
    expectOperand false l = expectLit "null".data l := rfl

theorem skip_expectChar_iff {p : Char → Bool} {c : Char} (hc : p c = false) {l r : List Char} :
    expectChar c (skipClass p l) = some r ↔ ∃ a, AllClass p a ∧ l = a ++ c :: r := by
  constructor
  · intro h
    obtain ⟨a, ha, hl, _⟩ := skipClass_decomp p l
    rw [expectChar_eq_some] at h
    exact ⟨a, ha, by rw [hl, h]⟩
  · rintro ⟨a, ha, rfl⟩
    rw [skipClass_of_split ha ?_, expectChar_eq_some]
    intro x hx
    simp only [List.head?_cons, Option.some.injEq] at hx
    subst hx
    exact hc

theorem skip_expectLit_iff {p : Char → Bool} {s : List Char}
    (hs : ∀ c, s.head? = some c → p c = false) (hsne : s ≠ []) {l r : List Char} :
    expectLit s (skipClass p l) = some r ↔ ∃ a, AllClass p a ∧ l = a ++ (s ++ r) := by
  constructor
  · intro h
    obtain ⟨a, ha, hl, _⟩ := skipClass_decomp p l
    rw [expectLit_eq_some] at h
    exact ⟨a, ha, by rw [hl, h]⟩
  · rintro ⟨a, ha, hl⟩
    have hskip : skipClass p l = s ++ r := by
      rw [hl]
      refine skipClass_of_split ha ?_
      intro x hx
      cases s with
      | nil => exact absurd rfl hsne
      | cons s0 ss =>
        simp only [List.cons_append, List.head?_cons, Option.some.injEq] at hx
        subst hx
        exact hs s0 rfl
    rw [hskip, expectLit_eq_some]

theorem skip_expectOperand_var_iff {l r : List Char} :
    expectOperand true (skipClass isSpaceChar l) = some r ↔
      ∃ a v, AllClass isSpaceChar a ∧ v ≠ [] ∧ AllClass isWordChar v ∧
        (∀ c, r.head? = some c → isWordChar c = false) ∧ l = a ++ (v ++ r) := by
  constructor
  · intro h
    obtain ⟨a, ha, hl, _⟩ := skipClass_decomp isSpaceChar l
    obtain ⟨v, hne, hall, hhead, hv⟩ := expectOperand_true_eq_some.mp h
    exact ⟨a, v, ha, hne, hall, hhead, by rw [hl, hv]⟩
  · rintro ⟨a, v, ha, hne, hall, hhead, hl⟩
    have hskip : skipClass isSpaceChar l = v ++ r := by
      rw [hl]
      refine skipClass_of_split ha ?_
      intro x hx
      cases v with
      | nil => exact absurd rfl hne
      | cons v0 vs =>
        simp only [List.cons_append, List.head?_cons, Option.some.injEq] at hx
        subst hx
        exact word_not_space (hall v0 (by simp))
    rw [hskip]
    exact expectOperand_true_eq_some.mpr ⟨v, hne, hall, hhead, rfl⟩

theorem skip_expectOperand_null_iff {l r : List Char} :
    expectOperand false (skipClass isSpaceChar l) = some r ↔
      ∃ a, AllClass isSpaceChar a ∧ l = a ++ ("null".data ++ r) := by
  rw [expectOperand_false_eq]
  exact skip_expectLit_iff
    (by intro c hc; simp only [show ("null".data).head? = some 'n' from rfl,
          Option.some.injEq] at hc; subst hc; decide)
    (by decide)

theorem matchIfNullCmpAt_iff {op : List Char} {varFirst : Bool}
    (hopne : op ≠ [])
    (hop : ∀ c, op.head? = some c → isSpaceChar c = false ∧ isWordChar c = false)
    (l : List Char) :
    matchIfNullCmpAt op varFirst l = true ↔ NullCmpShape op varFirst l := by
  rw [matchIfNullCmpAt, Option.isSome_iff_exists]
  have hopWordHead : ∀ (s3 r4 : List Char), AllClass isSpaceChar s3 →
      ∀ c, (s3 ++ (op ++ r4)).head? = some c → isWordChar c = false := by
    intro s3 r4 hs3 c hc
    cases s3 with
    | nil =>
      cases op with
      | nil => exact absurd rfl hopne
      | cons o os =>
        simp only [List.nil_append, List.cons_append, List.head?_cons,
          Option.some.injEq] at hc
        subst hc
        exact (hop o rfl).2
    | cons a as =>
      simp only [List.cons_append, List.head?_cons, Option.some.injEq] at hc
      subst hc
      exact space_not_word (hs3 a (by simp))
  have hcloseHead : ∀ (s5 rest : List Char), AllClass isSpaceChar s5 →
      ∀ c, (s5 ++ ')' :: rest).head? = some c → isWordChar c = false := by
    intro s5 rest hs5 c hc
    cases s5 with
    | nil =>
      simp only [List.nil_append, List.head?_cons, Option.some.injEq] at hc
      subst hc
      decide
    | cons a as =>
      simp only [List.cons_append, List.head?_cons, Option.some.injEq] at hc
      subst hc
      exact space_not_word (hs5 a (by simp))
  cases varFirst with
  | true =>
    constructor
    · rintro ⟨fin, h⟩
      simp only [Option.bind_eq_some] at h
      obtain ⟨r1, h1, r2, h2, r3, h3, r4, h4, r5, h5, h6⟩ := h
      rw [expectLit_eq_some] at h1
      obtain ⟨s1, hs1, h2'⟩ := (skip_expectChar_iff (by decide)).mp h2
      obtain ⟨s2, v, hs2, hvne, hvall, _, h3'⟩ := skip_expectOperand_var_iff.mp h3
      obtain ⟨s3, hs3, h4'⟩ :=
        (skip_expectLit_iff (fun c hc => (hop c hc).1) hopne).mp h4
      obtain ⟨s4, hs4, h5'⟩ := skip_expectOperand_null_iff.mp h5
      obtain ⟨s5, hs5, h6'⟩ := (skip_expectChar_iff (by decide)).mp h6
      refine ⟨s1, s2, v, s3, s4, s5, fin, hs1, hs2, hs3, hs4, hs5, hvne, hvall, ?_⟩
      subst h6' h5' h4' h3' h2' h1
      simp
    · rintro ⟨s1, s2, v, s3, s4, s5, rest, hs1, hs2, hs3, hs4, hs5, hvne, hvall, ht⟩
      simp only [if_true] at ht
      refine ⟨rest, ?_⟩
      simp only [Option.bind_eq_some]
      refine ⟨s1 ++ '(' :: (s2 ++ (v ++ (s3 ++ (op ++ (s4 ++ ("null".data ++
          (s5 ++ ')' :: rest))))))), expectLit_eq_some.mpr (by rw [ht]; rfl), ?_⟩
      refine ⟨s2 ++ (v ++ (s3 ++ (op ++ (s4 ++ ("null".data ++ (s5 ++ ')' :: rest)))))),
        (skip_expectChar_iff (by decide)).mpr ⟨s1, hs1, rfl⟩, ?_⟩
      refine ⟨s3 ++ (op ++ (s4 ++ ("null".data ++ (s5 ++ ')' :: rest)))),
        skip_expectOperand_var_iff.mpr
          ⟨s2, v, hs2, hvne, hvall, hopWordHead s3 _ hs3, rfl⟩, ?_⟩
      refine ⟨s4 ++ ("null".data ++ (s5 ++ ')' :: rest)),
        (skip_expectLit_iff (fun c hc => (hop c hc).1) hopne).mpr ⟨s3, hs3, rfl⟩, ?_⟩
      refine ⟨s5 ++ ')' :: rest,
        skip_expectOperand_null_iff.mpr ⟨s4, hs4, rfl⟩, ?_⟩
      exact (skip_expectChar_iff (by decide)).mpr ⟨s5, hs5, rfl⟩
  | false =>
    constructor
    · rintro ⟨fin, h⟩
      simp only [Option.bind_eq_some] at h
      obtain ⟨r1, h1, r2, h2, r3, h3, r4, h4, r5, h5, h6⟩ := h
      rw [expectLit_eq_some] at h1
      obtain ⟨s1, hs1, h2'⟩ := (skip_expectChar_iff (by decide)).mp h2
      obtain ⟨s2, hs2, h3'⟩ := skip_expectOperand_null_iff.mp h3
      obtain ⟨s3, hs3, h4'⟩ :=
        (skip_expectLit_iff (fun c hc => (hop c hc).1) hopne).mp h4
      obtain ⟨s4, v, hs4, hvne, hvall, _, h5'⟩ := skip_expectOperand_var_iff.mp h5
      obtain ⟨s5, hs5, h6'⟩ := (skip_expectChar_iff (by decide)).mp h6
      refine ⟨s1, s2, v, s3, s4, s5, fin, hs1, hs2, hs3, hs4, hs5, hvne, hvall, ?_⟩
      subst h6' h5' h4' h3' h2' h1
      simp
    · rintro ⟨s1, s2, v, s3, s4, s5, rest, hs1, hs2, hs3, hs4, hs5, hvne, hvall, ht⟩
      simp only [Bool.false_eq_true, if_false] at ht
      refine ⟨rest, ?_⟩
      simp only [Option.bind_eq_some]
      refine ⟨s1 ++ '(' :: (s2 ++ ("null".data ++ (s3 ++ (op ++ (s4 ++ (v ++
          (s5 ++ ')' :: rest))))))), expectLit_eq_some.mpr (by rw [ht]; rfl), ?_⟩
      refine ⟨s2 ++ ("null".data ++ (s3 ++ (op ++ (s4 ++ (v ++ (s5 ++ ')' :: rest)))))),
        (skip_expectChar_iff (by decide)).mpr ⟨s1, hs1, rfl⟩, ?_⟩
      refine ⟨s3 ++ (op ++ (s4 ++ (v ++ (s5 ++ ')' :: rest)))),
        skip_expectOperand_null_iff.mpr ⟨s2, hs2, rfl⟩, ?_⟩
      refine ⟨s4 ++ (v ++ (s5 ++ ')' :: rest)),
        (skip_expectLit_iff (fun c hc => (hop c hc).1) hopne).mpr ⟨s3, hs3, rfl⟩, ?_⟩
      refine ⟨s5 ++ ')' :: rest,
        skip_expectOperand_var_iff.mpr
          ⟨s4, v, hs4, hvne, hvall, hcloseHead s5 _ hs5, rfl⟩, ?_⟩
      exact (skip_expectChar_iff (by decide)).mpr ⟨s5, hs5, rfl⟩

/-- C6 (amended): `check_null_handling` returns `true` exactly when the body
contains an if-guarded null comparison in one of the four orientations, a
`Objects.requireNonNull` call text, or an `Optional.` reference — a bare null
comparison outside an `if (...)` condition is not detected. -/
theorem claim_C6 (code : List Char) :
    check_null_handling code = true ↔ NullCheckAmended code := by
  have hopEq : ∀ c : Char, ("==".data).head? = some c →
      isSpaceChar c = false ∧ isWordChar c = false := by
    intro c hc
    simp only [show ("==".data).head? = some '=' from rfl, Option.some.injEq] at hc
    subst hc
    exact ⟨by decide, by decide⟩
  have hopNe : ∀ c : Char, ("!=".data).head? = some c →
      isSpaceChar c = false ∧ isWordChar c = false := by
    intro c hc
    simp only [show ("!=".data).head? = some '!' from rfl, Option.some.injEq] at hc
    subst hc
    exact ⟨by decide, by decide⟩
  have e1 := fun t => @matchIfNullCmpAt_iff "==".data true (by decide) hopEq t
  have e2 := fun t => @matchIfNullCmpAt_iff "==".data false (by decide) hopEq t
  have e3 := fun t => @matchIfNullCmpAt_iff "!=".data true (by decide) hopNe t
  have e4 := fun t => @matchIfNullCmpAt_iff "!=".data false (by decide) hopNe t
  rw [check_null_handling, NullCheckAmended]
  simp only [Bool.or_eq_true, searchB_iff, e1, e2, e3, e4, leadsWith_iff, or_assoc]

/-- C6 counterexample to the claim as stated: this method body contains the
idiom `x == null` verbatim, yet `check_null_handling` classifies it as having
no null check (the comparison is not inside an `if (...)` condition). -/
theorem claim_C6_counterexample :
    check_null_handling "boolean b = (x == null);".data = false ∧
    (∃ i r, ("boolean b = (x == null);".data).drop i = "x == null".data ++ r) :=
  ⟨by decide, ⟨13, ");".data, by decide⟩⟩

/-! ## The relevance explorer: cycle safety and result soundness -/

theorem dfs_visited_nodup (mm : List (List Char × MethodInfo))
    (cg : List (List Char × List (List Char))) :
    ∀ fuel key acc, acc.visited.Nodup → ((dfs mm cg fuel key acc).visited).Nodup := by
  intro fuel
  induction fuel with
  | zero => intro key acc h; rw [dfs]; exact h
  | succ fuel ih =>
    have hfwd : ∀ ks acc, acc.visited.Nodup →
        ((dfsForward mm cg fuel ks acc).visited).Nodup := by
      intro ks
      induction ks with
      | nil => intro acc h; rw [dfsForward]; exact h
      | cons k ks ihk =>
        intro acc h
        rw [dfsForward]
        exact ihk _ (ih k acc h)
    have hbwd : ∀ es key acc, acc.visited.Nodup →
        ((dfsBackward mm cg fuel key es acc).visited).Nodup := by
      intro es
      induction es with
      | nil => intro key acc h; rw [dfsBackward]; exact h
      | cons e es ihe =>
        intro key acc h
        rw [dfsBackward]
        refine ihe key _ ?_
        by_cases hk : key ∈ e.2
        · rw [if_pos hk]; exact ih e.1 acc h
        · rw [if_neg hk]; exact h
    intro key acc h
    rw [dfs]
    by_cases hv : key ∈ acc.visited
    · rw [if_pos hv]; exact h
    · rw [if_neg hv]
      have h1 : (acc.visited ++ [key]).Nodup := by
        simp [List.nodup_append, h, hv]
      refine hbwd cg key _ ?_
      cases halk : alookup cg key with
      | none =>
        simp only [halk]
        cases hmm : alookup mm key <;> simp only [hmm] <;> exact h1
      | some callees =>
        simp only [halk]
        refine hfwd callees _ ?_
        cases hmm : alookup mm key <;> simp only [hmm] <;> exact h1

theorem dfs_related_sound (mm : List (List Char × MethodInfo))
    (cg : List (List Char × List (List Char))) :
    ∀ fuel key acc,
      (∀ k v, (k, v) ∈ acc.related → alookup mm k = some v) →
      ∀ k v, (k, v) ∈ (dfs mm cg fuel key acc).related → alookup mm k = some v := by
  intro fuel
  induction fuel with
  | zero => intro key acc h; rw [dfs]; exact h
  | succ fuel ih =>
    have hfwd : ∀ ks acc, (∀ k v, (k, v) ∈ acc.related → alookup mm k = some v) →
        ∀ k v, (k, v) ∈ (dfsForward mm cg fuel ks acc).related → alookup mm k = some v := by
      intro ks
      induction ks with
      | nil => intro acc h; rw [dfsForward]; exact h
      | cons k0 ks ihk =>
        intro acc h
        rw [dfsForward]
        exact ihk _ (ih k0 acc h)
    have hbwd : ∀ es key acc, (∀ k v, (k, v) ∈ acc.related → alookup mm k = some v) →
        ∀ k v, (k, v) ∈ (dfsBackward mm cg fuel key es acc).related →
          alookup mm k = some v := by
      intro es
      induction es with
      | nil => intro key acc h; rw [dfsBackward]; exact h
      | cons e es ihe =>
        intro key acc h
        rw [dfsBackward]
        refine ihe key _ ?_
        by_cases hk : key ∈ e.2
        · rw [if_pos hk]; exact ih e.1 acc h
        · rw [if_neg hk]; exact h
    intro key acc h
    rw [dfs]
    by_cases hv : key ∈ acc.visited
    · rw [if_pos hv]; exact h
    · rw [if_neg hv]
      refine hbwd cg key _ ?_
      have hstep : ∀ k v,
          (k, v) ∈ (match alookup mm key with
            | some info =>
              { visited := acc.visited ++ [key], related := acc.related ++ [(key, info)] :
                SearchAcc }
            | none => { acc with visited := acc.visited ++ [key] }).related →
          alookup mm k = some v := by
        cases hmm : alookup mm key with
        | none => simpa using h
        | some info =>
          simp only [List.mem_append, List.mem_singleton]
          rintro k v (hm | hm)
          · exact h k v hm
          · rw [Prod.mk.injEq] at hm
            obtain ⟨rfl, rfl⟩ := hm
            exact hmm
      cases halk : alookup cg key with
      | none => simpa only [halk] using hstep
      | some callees =>
        simp only [halk]
        exact hfwd callees _ hstep

/-- C3: on every call graph — cyclic ones included — the explorer terminates
(in this embedding `dfs` is a total function, its recursion bounded by the
depth fuel) and never expands a key twice: the `visited` list, which records
keys in expansion order, has no duplicates, because the visited check precedes
every expansion. Concretely, on the cycle `A.a → B.b → A.a`, the search at the
default depth bound expands each of the two keys exactly once. -/
theorem claim_C3 :
    (∀ (mm : List (List Char × MethodInfo)) (cg : List (List Char × List (List Char)))
        (fuel : Nat) (key : List Char),
        ((dfs mm cg fuel key ⟨[], []⟩).visited).Nodup) ∧
    (dfs soloMM cycleCG 3 "A.a".data ⟨[], []⟩).visited = ["A.a".data, "B.b".data] := by
  constructor
  · exact fun mm cg fuel key => dfs_visited_nodup mm cg fuel key ⟨[], []⟩ (by simp)
  · simp [dfs, dfsForward, dfsBackward, soloMM, cycleCG, alookup]

/-- C10: the mapping `find_related_methods` returns is a sub-mapping of the
method map — every key in the result is bound to exactly the descriptor the
method map stores for it. Traversed keys absent from the method map are still
expanded: concretely, the literal callee text `obj.foo` is visited by the
search but does not appear in the result. -/
theorem claim_C10 :
    (∀ (st : AnalyzerState) (cls mth : List Char) (depth : Nat) (k : List Char)
        (v : MethodInfo), (k, v) ∈ find_related_methods st cls mth depth →
        alookup st.method_map k = some v) ∧
    ((dfs soloMM literalCG 3 "A.a".data ⟨[], []⟩).visited =
        ["A.a".data, "obj.foo".data] ∧
      (dfs soloMM literalCG 3 "A.a".data ⟨[], []⟩).related =
        [("A.a".data, ⟨"A".data, "a".data, "A.java".data⟩)]) := by
  refine ⟨fun st cls mth depth k v h => ?_, ?_, ?_⟩
  · exact dfs_related_sound st.method_map st.call_graph (depth + 1)
      (cls ++ '.' :: mth) ⟨[], []⟩ (by simp) k v h
  · simp [dfs, dfsForward, dfsBackward, soloMM, literalCG, alookup]
  · simp [dfs, dfsForward, dfsBackward, soloMM, literalCG, alookup]

/-! ## The indexer maps: key growth and the method-map/call-graph invariant -/

theorem foldl_preserve {α σ : Type} (f : σ → α → σ) (P : σ → Prop)
    (h : ∀ s a, P s → P (f s a)) : ∀ (l : List α) (s : σ), P s → P (l.foldl f s) := by
  intro l
  induction l with
  | nil => intro s hs; exact hs
  | cons a l ih => intro s hs; exact ih _ (h s a hs)

theorem mem_akeys_ainsert {α β : Type} [DecidableEq α] (m : List (α × β)) (k : α) (v : β)
    (k' : α) : k' ∈ akeys (ainsert m k v) ↔ k' ∈ akeys m ∨ k' = k := by
  induction m with
  | nil => simp [ainsert, akeys]
  | cons e m ih =>
    rw [ainsert]
    by_cases hk : k = e.1
    · rw [if_pos hk]
      simp only [akeys, List.map_cons, List.mem_cons]
      rw [hk]
      tauto
    · rw [if_neg hk]
      simp only [akeys, List.map_cons, List.mem_cons] at ih ⊢
      rw [ih]
      tauto

theorem alookup_isSome_iff {α β : Type} [DecidableEq α] (m : List (α × β)) (k : α) :
    (alookup m k).isSome = true ↔ k ∈ akeys m := by
  induction m with
  | nil => simp [alookup, akeys]
  | cons e m ih =>
    rw [alookup]
    by_cases hk : k = e.1
    · simp [hk, akeys]
    · rw [if_neg hk]
      simp only [akeys, List.map_cons, List.mem_cons] at ih ⊢
      rw [ih]
      simp [hk]

theorem akeys_cgAdd (g : List (List Char × List (List Char))) (k v : List Char) :
    akeys (cgAdd g k v) = akeys g := by
  induction g with
  | nil => rfl
  | cons e g ih =>
    rw [cgAdd]
    by_cases hk : k = e.1
    · rw [if_pos hk]; rfl
    · rw [if_neg hk]
      simp only [akeys, List.map_cons] at ih ⊢
      rw [ih]

theorem process_method_calls_cg_keys (st : AnalyzerState) (cn : List Char) (m : JMethod)
    (k : List Char) (h : k ∈ akeys st.call_graph ∨ k = cn ++ '.' :: m.name) :
    k ∈ akeys (process_method_calls st cn m).call_graph := by
  simp only [process_method_calls]
  refine foldl_preserve _ (fun g => k ∈ akeys g) ?_ m.calls _ ?_
  · intro g c hg
    by_cases hq : c.qualifier ≠ []
    · rw [if_pos hq, akeys_cgAdd]; exact hg
    · rw [if_neg hq]; exact hg
  · cases halk : alookup st.call_graph (cn ++ '.' :: m.name) with
    | some s =>
      rcases h with h | h
      · exact h
      · rw [h]
        exact (alookup_isSome_iff st.call_graph _).mp (by rw [halk]; rfl)
    | none =>
      rcases h with h | h
      · simp only [akeys, List.map_append, List.mem_append]
        exact Or.inl h
      · subst h
        simp [akeys, List.map_append]

theorem process_method_calls_class_map (st : AnalyzerState) (cn : List Char) (m : JMethod) :
    (process_method_calls st cn m).class_map = st.class_map := rfl

theorem process_method_calls_method_map (st : AnalyzerState) (cn : List Char) (m : JMethod) :
    (process_method_calls st cn m).method_map = st.method_map := rfl

theorem processClass_eq (pn fp : List Char) (st : AnalyzerState) (c : JClass) :
    processClass pn fp st c =
      c.methods.foldl (methodStep (if pn ≠ [] then pn ++ '.' :: c.name else c.name) fp)
        { st with class_map := ainsert st.class_map (if pn ≠ [] then pn ++ '.' :: c.name else c.name) fp } := rfl

/-- Keys are never removed from any of the three maps by the per-method step. -/
theorem methodStep_keys_mono (fc fp : List Char) (st : AnalyzerState) (m : JMethod)
    (k : List Char) :
    (k ∈ akeys st.class_map → k ∈ akeys (methodStep fc fp st m).class_map) ∧
    (k ∈ akeys st.method_map → k ∈ akeys (methodStep fc fp st m).method_map) ∧
    (k ∈ akeys st.call_graph → k ∈ akeys (methodStep fc fp st m).call_graph) := by
  refine ⟨?_, ?_, ?_⟩
  · intro h
    rw [methodStep, process_method_calls_class_map]
    exact h
  · intro h
    rw [methodStep, process_method_calls_method_map]
    exact (mem_akeys_ainsert _ _ _ _).mpr (Or.inl h)
  · intro h
    exact process_method_calls_cg_keys _ fc m k (Or.inl h)

/-- Keys are never removed from any of the three maps by class processing. -/
theorem processClass_keys_mono (pn fp : List Char) (c : JClass) (st : AnalyzerState)
    (k : List Char) :
    (k ∈ akeys st.class_map → k ∈ akeys (processClass pn fp st c).class_map) ∧
    (k ∈ akeys st.method_map → k ∈ akeys (processClass pn fp st c).method_map) ∧
    (k ∈ akeys st.call_graph → k ∈ akeys (processClass pn fp st c).call_graph) := by
  rw [processClass_eq]
  refine ⟨?_, ?_, ?_⟩
  · intro h
    refine foldl_preserve _ (fun s => k ∈ akeys s.class_map)
      (fun s m hm => (methodStep_keys_mono _ _ s m k).1 hm) c.methods _ ?_
    exact (mem_akeys_ainsert _ _ _ _).mpr (Or.inl h)
  · intro h
    exact foldl_preserve _ (fun s => k ∈ akeys s.method_map)
      (fun s m hm => (methodStep_keys_mono _ _ s m k).2.1 hm) c.methods
      { st with class_map := ainsert st.class_map (if pn ≠ [] then pn ++ '.' :: c.name else c.name) fp } h
  · intro h
    exact foldl_preserve _ (fun s => k ∈ akeys s.call_graph)
      (fun s m hm => (methodStep_keys_mono _ _ s m k).2.2 hm) c.methods
      { st with class_map := ainsert st.class_map (if pn ≠ [] then pn ++ '.' :: c.name else c.name) fp } h

/-- Keys are never removed from any of the three maps by file processing. -/
theorem process_java_files_keys_mono (files : List (List Char × Option JFile))
    (st : AnalyzerState) (k : List Char) :
    (k ∈ akeys st.class_map → k ∈ akeys (process_java_files st files).class_map) ∧
    (k ∈ akeys st.method_map → k ∈ akeys (process_java_files st files).method_map) ∧
    (k ∈ akeys st.call_graph → k ∈ akeys (process_java_files st files).call_graph) := by
  have hcontent : ∀ (f : JFile) (fp : List Char) (s : AnalyzerState),
      (k ∈ akeys s.class_map → k ∈ akeys (process_java_content s f fp).class_map) ∧
      (k ∈ akeys s.method_map → k ∈ akeys (process_java_content s f fp).method_map) ∧
      (k ∈ akeys s.call_graph → k ∈ akeys (process_java_content s f fp).call_graph) := by
    intro f fp s
    rw [process_java_content]
    refine ⟨?_, ?_, ?_⟩
    · exact fun h => foldl_preserve _ (fun s => k ∈ akeys s.class_map)
        (fun s c hc => (processClass_keys_mono _ _ c s k).1 hc) f.classes s h
    · exact fun h => foldl_preserve _ (fun s => k ∈ akeys s.method_map)
        (fun s c hc => (processClass_keys_mono _ _ c s k).2.1 hc) f.classes s h
    · exact fun h => foldl_preserve _ (fun s => k ∈ akeys s.call_graph)
        (fun s c hc => (processClass_keys_mono _ _ c s k).2.2 hc) f.classes s h
  rw [process_java_files]
  refine ⟨?_, ?_, ?_⟩
  · refine fun h => foldl_preserve _ (fun s => k ∈ akeys s.class_map) ?_ files st h
    intro s pf hs
    cases hp : pf.2 with
    | some f => simp only [hp]; exact (hcontent f pf.1 s).1 hs
    | none => simp only [hp]; exact hs
  · refine fun h => foldl_preserve _ (fun s => k ∈ akeys s.method_map) ?_ files st h
    intro s pf hs
    cases hp : pf.2 with
    | some f => simp only [hp]; exact (hcontent f pf.1 s).2.1 hs
    | none => simp only [hp]; exact hs
  · refine fun h => foldl_preserve _ (fun s => k ∈ akeys s.call_graph) ?_ files st h
    intro s pf hs
    cases hp : pf.2 with
    | some f => simp only [hp]; exact (hcontent f pf.1 s).2.2 hs
    | none => simp only [hp]; exact hs

theorem methodStep_invariant (fc fp : List Char) (st : AnalyzerState) (m : JMethod)
    (h : MKeysSub st) : MKeysSub (methodStep fc fp st m) := by
  intro k hk
  rw [methodStep, process_method_calls_method_map] at hk
  simp only at hk
  rw [mem_akeys_ainsert] at hk
  rw [methodStep]
  rcases hk with hk | hk
  · exact process_method_calls_cg_keys _ fc m k (Or.inl (h k hk))
  · exact process_method_calls_cg_keys _ fc m k (Or.inr hk)

theorem process_java_files_invariant (files : List (List Char × Option JFile))
    (st : AnalyzerState) (h : MKeysSub st) : MKeysSub (process_java_files st files) := by
  have hclass : ∀ (pn fp : List Char) (c : JClass) (s : AnalyzerState),
      MKeysSub s → MKeysSub (processClass pn fp s c) := by
    intro pn fp c s hs
    rw [processClass_eq]
    refine foldl_preserve _ MKeysSub (fun s m hm => methodStep_invariant _ _ s m hm)
      c.methods _ ?_
    intro k hk
    exact hs k hk
  have hcontent : ∀ (f : JFile) (fp : List Char) (s : AnalyzerState),
      MKeysSub s → MKeysSub (process_java_content s f fp) := by
    intro f fp s hs
    rw [process_java_content]
    exact foldl_preserve _ MKeysSub (fun s c hc => hclass _ _ c s hc) f.classes s hs
  rw [process_java_files]
  refine foldl_preserve _ MKeysSub ?_ files st h
  intro s pf hs
  cases hp : pf.2 with
  | some f => simp only [hp]; exact hcontent f pf.1 s hs
  | none => simp only [hp]; exact hs

/-- C9: after indexing any file set from a fresh analyzer, every key of the
method map also keys an entry of the call graph (`_process_method_calls`
initialises the entry before recording calls), so call-graph lookups on
indexed methods never miss. -/
theorem claim_C9 (files : List (List Char × Option JFile)) (k : List Char)
    (h : k ∈ akeys (process_java_files initState files).method_map) :
    k ∈ akeys (process_java_files initState files).call_graph :=
  process_java_files_invariant files initState (fun _ hk => by simp [initState, akeys] at hk)
    k h

/-- Witness for C9 at a concrete file set. -/
theorem claim_C9_witness :
    "A.m".data ∈ akeys (process_java_files initState [("A.java".data, some fileA)]).call_graph :=
  claim_C9 [("A.java".data, some fileA)] "A.m".data (by decide)

/-- C4 counterexample to the claim as stated: the tool instance reuses one
`JavaAnalyzer`, and `process_java_files` only adds to the maps, so the method
map produced while serving a first request (indexing `A.java`) is still
observable while serving a second request (indexing `B.java`); a fresh rebuild
from the second request's file list alone would not contain it. -/
theorem claim_C4_counterexample :
    alookup (process_java_files (process_java_files initState
        [("A.java".data, some fileA)]) [("B.java".data, some fileB)]).method_map
      "A.m".data = some ⟨"A".data, "m".data, "A.java".data⟩ ∧
    alookup (process_java_files initState [("B.java".data, some fileB)]).method_map
      "A.m".data = none := by
  exact ⟨by decide, by decide⟩

/-- C4 (amended): index state accumulates across requests on the same tool
instance — indexing never removes or resets entries, so every class-map,
method-map and call-graph key present while serving one request is still
present while serving any later request; the maps are not rebuilt fresh. -/
theorem claim_C4 (st : AnalyzerState) (files : List (List Char × Option JFile)) :
    (∀ k, k ∈ akeys st.class_map → k ∈ akeys (process_java_files st files).class_map) ∧
    (∀ k, k ∈ akeys st.method_map → k ∈ akeys (process_java_files st files).method_map) ∧
    (∀ k, k ∈ akeys st.call_graph → k ∈ akeys (process_java_files st files).call_graph) :=
  ⟨fun k => (process_java_files_keys_mono files st k).1,
   fun k => (process_java_files_keys_mono files st k).2.1,
   fun k => (process_java_files_keys_mono files st k).2.2⟩

/-! ## The orchestrator's degenerate branches -/

/-- C5 (amended): when the stack trace parses to zero frames the orchestrator
answers status `error` with no `root_cause`; when frames exist, the clone
succeeds and no Java files are found, it answers status `warning` carrying the
parsed `exception_info` and no `related_methods` field at all. Both facts hold
for every continuation standing for the rest of the request. -/
theorem claim_C5 :
    (∀ (rest : ExceptionInfo → StackFrame → List (List Char × Option JFile) → AnalyzeResult)
        (clone : Except (List Char) Unit) (files : List (List Char × Option JFile))
        (st : List Char), (parse_stacktrace st).frames = [] →
        (analyze_error rest clone files st).status = "error".data ∧
        (analyze_error rest clone files st).root_cause = none) ∧
    (∀ (rest : ExceptionInfo → StackFrame → List (List Char × Option JFile) → AnalyzeResult)
        (st : List Char), (parse_stacktrace st).frames ≠ [] →
        (analyze_error rest (.ok ()) [] st).status = "warning".data ∧
        (analyze_error rest (.ok ()) [] st).exception_info = some (parse_stacktrace st) ∧
        (analyze_error rest (.ok ()) [] st).related_methods = none) := by
  constructor
  · intro rest clone files st h
    simp [analyze_error, h]
  · intro rest st h
    obtain ⟨f, fs, hf⟩ := List.exists_cons_of_ne_nil h
    simp [analyze_error, hf]

/-- C5 counterexample to the claim as stated: on the no-Java-files path the
warning result carries no `related_methods` key at all — its `related_methods`
field is absent (`none`), not an empty list. -/
theorem claim_C5_counterexample :
    (analyze_error (fun _ _ _ => ⟨"x".data, none, none, none, none, none⟩)
        (.ok ()) [] npeTrace).related_methods = none ∧
    (analyze_error (fun _ _ _ => ⟨"x".data, none, none, none, none, none⟩)
        (.ok ()) [] npeTrace).related_methods ≠ some [] ∧
    (analyze_error (fun _ _ _ => ⟨"x".data, none, none, none, none, none⟩)
        (.ok ()) [] npeTrace).status = "warning".data := by
  refine ⟨by decide, by decide, by decide⟩

/-! ## The ranker: descending order, stability, and the weight decomposition -/

theorem mem_insertDesc {α : Type} (w : α → Nat) (x z : α) :
    ∀ l, z ∈ insertDesc w x l ↔ z = x ∨ z ∈ l := by
  intro l
  induction l with
  | nil => simp [insertDesc]
  | cons y ys ih =>
    rw [insertDesc]
    by_cases hw : w y < w x
    · rw [if_pos hw]
      simp [List.mem_cons]
    · rw [if_neg hw]
      simp only [List.mem_cons, ih]
      tauto

theorem insertDesc_pairwise {α : Type} (w : α → Nat) (x : α) (l : List α)
    (h : l.Pairwise fun a b => w b ≤ w a) :
    (insertDesc w x l).Pairwise fun a b => w b ≤ w a := by
  induction l with
  | nil => simp [insertDesc]
  | cons y ys ih =>
    rw [insertDesc]
    have hy := List.pairwise_cons.mp h
    by_cases hw : w y < w x
    · rw [if_pos hw]
      refine List.Pairwise.cons ?_ h
      intro z hz
      rcases List.mem_cons.mp hz with rfl | hz
      · omega
      · have := hy.1 z hz
        omega
    · rw [if_neg hw]
      refine List.Pairwise.cons ?_ (ih hy.2)
      intro z hz
      rcases (mem_insertDesc w x z ys).mp hz with rfl | hz
      · omega
      · exact hy.1 z hz

theorem sortDesc_pairwise {α : Type} (w : α → Nat) (l : List α) :
    (sortDesc w l).Pairwise fun a b => w b ≤ w a := by
  rw [sortDesc]
  exact foldl_preserve _ (fun acc => acc.Pairwise fun a b => w b ≤ w a)
    (fun acc x hacc => insertDesc_pairwise w x acc hacc) l [] (by simp)

theorem insertDesc_filter_ne {α : Type} (w : α → Nat) (x : α) (n : Nat) (hn : (w x == n) = false) :
    ∀ l : List α, (insertDesc w x l).filter (fun y => w y == n) =
      l.filter fun y => w y == n := by
  intro l
  induction l with
  | nil => simp [insertDesc, List.filter, hn]
  | cons y ys ih =>
    rw [insertDesc]
    by_cases hw : w y < w x
    · rw [if_pos hw, List.filter_cons, List.filter_cons, hn]
      simp
    · rw [if_neg hw, List.filter_cons, List.filter_cons, ih]

theorem insertDesc_filter_eq {α : Type} (w : α → Nat) (x : α) :
    ∀ l : List α, (l.Pairwise fun a b => w b ≤ w a) →
      (insertDesc w x l).filter (fun y => w y == w x) =
        (l.filter fun y => w y == w x) ++ [x] := by
  intro l
  induction l with
  | nil => simp [insertDesc, List.filter]
  | cons y ys ih =>
    intro h
    have hy := List.pairwise_cons.mp h
    rw [insertDesc]
    by_cases hw : w y < w x
    · rw [if_pos hw]
      have hnil : ((y :: ys).filter fun z => w z == w x) = [] := by
        rw [List.filter_eq_nil_iff]
        intro z hz
        rcases List.mem_cons.mp hz with rfl | hz
        · simp only [beq_iff_eq]
          omega
        · have := hy.1 z hz
          simp only [beq_iff_eq]
          omega
      rw [hnil, List.filter_cons]
      simp only [beq_self_eq_true, if_true, List.nil_append]
      rw [show ((y :: ys).filter fun z => w z == w x) = [] from hnil]
    · rw [if_neg hw]
      rw [List.filter_cons, List.filter_cons]
      by_cases hyx : (w y == w x) = true
      · rw [hyx, ih hy.2]
        simp
      · have hyx' : (w y == w x) = false := Bool.eq_false_iff.mpr hyx
        rw [hyx', ih hy.2]
        simp

theorem sortDesc_filter {α : Type} (w : α → Nat) (l : List α) (n : Nat) :
    (sortDesc w l).filter (fun y => w y == n) = l.filter fun y => w y == n := by
  have main : ∀ (l acc : List α), (acc.Pairwise fun a b => w b ≤ w a) →
      ((l.foldl (fun acc x => insertDesc w x acc) acc).filter fun y => w y == n) =
        (acc.filter fun y => w y == n) ++ (l.filter fun y => w y == n) := by
    intro l
    induction l with
    | nil => intro acc _; simp
    | cons x xs ih =>
      intro acc hacc
      rw [List.foldl_cons, ih _ (insertDesc_pairwise w x acc hacc), List.filter_cons]
      by_cases hx : (w x == n) = true
      · have hn : w x = n := by simpa using hx
        rw [hx]
        subst hn
        rw [insertDesc_filter_eq w x acc hacc]
        simp
      · have hx' : (w x == n) = false := by simpa using hx
        rw [hx', insertDesc_filter_ne w x n hx' acc]
        simp
  rw [sortDesc]
  simpa using main l [] (by simp)

theorem mem_sortDesc {α : Type} (w : α → Nat) (l : List α) (z : α) :
    z ∈ sortDesc w l ↔ z ∈ l := by
  have main : ∀ (l acc : List α),
      (z ∈ l.foldl (fun acc x => insertDesc w x acc) acc ↔ z ∈ acc ∨ z ∈ l) := by
    intro l
    induction l with
    | nil => intro acc; simp
    | cons x xs ih =>
      intro acc
      rw [List.foldl_cons, ih]
      rw [mem_insertDesc]
      simp only [List.mem_cons]
      tauto
  rw [sortDesc]
  simpa using main l []

/-- C7: the ranker's output is ordered descending by weight, and entries of
equal weight keep the relative (insertion) order they had in the input
mapping: filtering the output at any fixed weight yields exactly the same
sequence as filtering the weighted input. -/
theorem claim_C7 (days_diff : List Char → Option Int) (st : AnalyzerState)
    (methods : List (List Char × MethodInfo))
    (commits : List (List Char × List (List Char × List Char)))
    (handling : List (List Char × (Bool × Bool))) :
    ((weight_methods days_diff st methods commits handling).Pairwise
      fun a b => b.2.2 ≤ a.2.2) ∧
    ∀ n : Nat, ((weight_methods days_diff st methods commits handling).filter
        fun x => x.2.2 == n) =
      ((methods.map fun km => (km.1, (km.2, methodWeight days_diff commits handling
          (referenceCount st.call_graph) km.1 km.2))).filter fun x => x.2.2 == n) := by
  constructor
  · exact sortDesc_pairwise _ _
  · intro n
    exact sortDesc_filter _ _ n

theorem methodWeight_decomp (days_diff : List Char → Option Int)
    (commits : List (List Char × List (List Char × List Char)))
    (handling : List (List Char × (Bool × Bool)))
    (rc : List (List Char × Nat)) (key : List Char) (info : MethodInfo) :
    methodWeight days_diff commits handling rc key info =
      recencyScore days_diff commits info.file_path + handlingScore handling key +
        rcScore rc key := by
  rw [methodWeight, recencyScore, handlingScore, rcScore]
  cases h1 : alookup commits info.file_path with
  | none =>
    cases h2 : alookup handling key with
    | none =>
      cases h3 : alookup rc key with
      | none => rfl
      | some cnt => simp only; split_ifs <;> rfl
    | some flags =>
      cases h3 : alookup rc key with
      | none => simp only; split_ifs <;> rfl
      | some cnt => simp only; split_ifs <;> rfl
  | some cinfo =>
    simp only
    by_cases hc : cinfo = ([] : List (List Char × List Char))
    · subst hc
      simp only [show alookup ([] : List (List Char × List Char)) "date".data = none
        from rfl, show (([] : List (List Char × List Char)) ≠ []) = False by simp,
        if_false]
      cases h2 : alookup handling key with
      | none =>
        cases h3 : alookup rc key with
        | none => rfl
        | some cnt => simp only; split_ifs <;> rfl
      | some flags =>
        cases h3 : alookup rc key with
        | none => simp only; split_ifs <;> rfl
        | some cnt => simp only; split_ifs <;> rfl
    · rw [if_pos hc]
      cases h4 : alookup cinfo "date".data with
      | none =>
        cases h2 : alookup handling key with
        | none =>
          cases h3 : alookup rc key with
          | none => rfl
          | some cnt => simp only; split_ifs <;> rfl
        | some flags =>
          cases h3 : alookup rc key with
          | none => simp only; split_ifs <;> rfl
          | some cnt => simp only; split_ifs <;> rfl
      | some ds =>
        simp only
        cases h5 : days_diff ds with
        | none =>
          cases h2 : alookup handling key with
          | none =>
            cases h3 : alookup rc key with
            | none => rfl
            | some cnt => simp only; split_ifs <;> rfl
          | some flags =>
            cases h3 : alookup rc key with
            | none => simp only; split_ifs <;> rfl
            | some cnt => simp only; split_ifs <;> rfl
        | some days =>
          cases h2 : alookup handling key with
          | none =>
            cases h3 : alookup rc key with
            | none => simp only; split_ifs <;> rfl
            | some cnt => simp only; split_ifs <;> rfl
          | some flags =>
            cases h3 : alookup rc key with
            | none => simp only; split_ifs <;> rfl
            | some cnt => simp only; split_ifs <;> rfl

theorem alookup_rcInc_self (m : List (List Char × Nat)) (k : List Char) :
    alookup (rcInc m k) k = some ((alookup m k).getD 0 + 1) := by
  induction m with
  | nil => simp [rcInc, alookup]
  | cons e m ih =>
    rw [rcInc]
    by_cases hk : k = e.1
    · rw [if_pos hk, alookup, if_pos hk, alookup, if_pos hk]
      rfl
    · rw [if_neg hk, alookup, if_neg hk, alookup, if_neg hk, ih]

theorem alookup_rcInc_other (m : List (List Char × Nat)) (k k' : List Char) (h : k' ≠ k) :
    alookup (rcInc m k) k' = alookup m k' := by
  induction m with
  | nil => simp [rcInc, alookup, h]
  | cons e m ih =>
    rw [rcInc]
    by_cases hk : k = e.1
    · rw [if_pos hk, alookup, alookup]
      subst hk
      rw [if_neg h, if_neg h]
    · rw [if_neg hk, alookup, alookup]
      by_cases hk' : k' = e.1
      · rw [if_pos hk', if_pos hk']
      · rw [if_neg hk', if_neg hk', ih]

theorem alookup_foldl_rcInc (cs : List (List Char)) :
    ∀ (m : List (List Char × Nat)) (k : List Char),
      alookup (cs.foldl rcInc m) k =
        if cs.count k = 0 then alookup m k
        else some ((alookup m k).getD 0 + cs.count k) := by
  induction cs with
  | nil => intro m k; simp
  | cons c cs ih =>
    intro m k
    rw [List.foldl_cons, ih]
    by_cases hc : c = k
    · subst hc
      rw [List.count_cons_self, alookup_rcInc_self]
      by_cases h0 : cs.count c = 0
      · simp [h0]
      · simp only [h0, if_false, Nat.add_eq_zero, show (1 : Nat) ≠ 0 from one_ne_zero,
          and_false, Option.getD_some]
        congr 1
        omega
    · rw [List.count_cons_of_ne (by exact fun h => hc h.symm),
        alookup_rcInc_other m c k (by exact fun h => hc h.symm)]

theorem alookup_rcFold (cg : List (List Char × List (List Char))) :
    ∀ (m : List (List Char × Nat)) (k : List Char),
      alookup (cg.foldl (fun rc e => e.2.foldl rcInc rc) m) k =
        if totalCount cg k = 0 then alookup m k
        else some ((alookup m k).getD 0 + totalCount cg k) := by
  induction cg with
  | nil => intro m k; simp [totalCount]
  | cons e cg ih =>
    intro m k
    rw [List.foldl_cons, ih, alookup_foldl_rcInc]
    have ht : totalCount (e :: cg) k = e.2.count k + totalCount cg k := by
      simp [totalCount, List.map_cons, List.sum_cons]
    rw [ht]
    by_cases h1 : e.2.count k = 0
    · rw [h1]
      by_cases h2 : totalCount cg k = 0 <;> simp [h2]
    · by_cases h2 : totalCount cg k = 0
      · rw [h2, if_pos rfl, if_neg h1, if_neg (by omega : ¬(e.2.count k + 0 = 0))]
        simp
      · rw [if_neg h2, if_neg h1,
          if_neg (by omega : ¬(e.2.count k + totalCount cg k = 0))]
        simp only [Option.getD_some]
        congr 1
        omega

theorem alookup_referenceCount (cg : List (List Char × List (List Char))) (k : List Char) :
    alookup (referenceCount cg) k =
      if totalCount cg k = 0 then none else some (totalCount cg k) := by
  rw [referenceCount, alookup_rcFold]
  by_cases h : totalCount cg k = 0 <;> simp [h, alookup]

theorem count_eq_zero_not_mem : ∀ (l : List (List Char)) (k : List Char),
    k ∉ l → l.count k = 0 := by
  intro l
  induction l with
  | nil => intro k _; rfl
  | cons c t ih =>
    intro k h
    simp only [List.mem_cons, not_or] at h
    rw [List.count_cons, ih k h.2]
    simp only [beq_iff_eq, Nat.zero_add]
    rw [if_neg (fun hh : c = k => h.1 hh.symm)]

theorem count_eq_one_mem : ∀ (l : List (List Char)) (k : List Char),
    l.Nodup → k ∈ l → l.count k = 1 := by
  intro l
  induction l with
  | nil => intro k _ h; simp at h
  | cons c t ih =>
    intro k hd hk
    rw [List.count_cons]
    rcases List.mem_cons.mp hk with rfl | hk'
    · rw [count_eq_zero_not_mem t k (List.nodup_cons.mp hd).1]
      simp
    · have hne : k ≠ c := by
        rintro rfl
        exact (List.nodup_cons.mp hd).1 hk'
      rw [ih k (List.nodup_cons.mp hd).2 hk']
      simp only [beq_iff_eq]
      rw [if_neg (fun hh : c = k => hne hh.symm)]

theorem totalCount_eq_callers (cg : List (List Char × List (List Char)))
    (h : ∀ e ∈ cg, e.2.Nodup) (k : List Char) :
    totalCount cg k = (cg.filter fun e => decide (k ∈ e.2)).length := by
  induction cg with
  | nil => simp [totalCount]
  | cons e cg ih =>
    have ht : totalCount (e :: cg) k = e.2.count k + totalCount cg k := by
      simp [totalCount, List.map_cons, List.sum_cons]
    rw [ht, ih (fun x hx => h x (by simp [hx])), List.filter_cons]
    by_cases hk : k ∈ e.2
    · rw [count_eq_one_mem e.2 k (h e (by simp)) hk]
      simp [hk]
      omega
    · rw [count_eq_zero_not_mem e.2 k hk]
      simp [hk]

theorem rcScore_eq_faninScore (cg : List (List Char × List (List Char)))
    (h : ∀ e ∈ cg, e.2.Nodup) (k : List Char) :
    rcScore (referenceCount cg) k = faninScore cg k := by
  rw [rcScore, faninScore, alookup_referenceCount, ← totalCount_eq_callers cg h k]
  by_cases h0 : totalCount cg k = 0
  · rw [if_pos h0]
    simp only [h0]
    rfl
  · rw [if_neg h0]
    simp only
    split_ifs <;> omega

/-- C1: every weight the ranker assigns decomposes as
`recency_score + handling_score + fanin_score` with exactly the thresholds of
the spec's table; fan-in counts distinct callers, which requires the recorded
callee sets to be duplicate-free, as Python sets are. A file with no commit
metadata entry contributes recency 0, never an error. -/
theorem claim_C1 (days_diff : List Char → Option Int) (st : AnalyzerState)
    (methods : List (List Char × MethodInfo))
    (commits : List (List Char × List (List Char × List Char)))
    (handling : List (List Char × (Bool × Bool)))
    (hnodup : ∀ e ∈ st.call_graph, e.2.Nodup)
    (k : List Char) (info : MethodInfo) (w : Nat)
    (hmem : (k, (info, w)) ∈ weight_methods days_diff st methods commits handling) :
    w = recencyScore days_diff commits info.file_path + handlingScore handling k +
        faninScore st.call_graph k := by
  rw [weight_methods, mem_sortDesc] at hmem
  obtain ⟨km, hkm, heq⟩ := List.mem_map.mp hmem
  rw [Prod.mk.injEq] at heq
  obtain ⟨h1, h2⟩ := heq
  rw [Prod.mk.injEq] at h2
  obtain ⟨h2, h3⟩ := h2
  subst h1
  subst h2
  subst h3
  rw [methodWeight_decomp, rcScore_eq_faninScore st.call_graph hnodup]

/-- Witness for C1 at a concrete ranking input. -/
theorem claim_C1_witness :
    (0 : Nat) = recencyScore (fun _ => none) [] "A.java".data +
      handlingScore [] "A.m".data + faninScore initState.call_graph "A.m".data :=
  claim_C1 (fun _ => none) initState
    [("A.m".data, ⟨"A".data, "m".data, "A.java".data⟩)] [] []
    (by intro e he; simp [initState] at he) "A.m".data
    ⟨"A".data, "m".data, "A.java".data⟩ 0 (by decide)

theorem applyOps_append (s : AnalyzerState) (L1 L2 : List IndexOp) :
    applyOps s (L1 ++ L2) = applyOps (applyOps s L1) L2 := by
  rw [applyOps, applyOps, applyOps, List.foldl_append]

theorem applyOps_cons (s : AnalyzerState) (op : IndexOp) (L : List IndexOp) :
    applyOps s (op :: L) = applyOps (applyOp s op) L := rfl

theorem applyOps_edges (key : List Char) (calls : List JCall) :
    ∀ st : AnalyzerState,
      applyOps st (calls.filterMap fun c =>
          if c.qualifier ≠ [] then some (.addEdge key (c.qualifier ++ '.' :: c.member))
          else none) =
        { st with call_graph := (calls.foldl (fun g c => if c.qualifier ≠ [] then cgAdd g key (c.qualifier ++ '.' :: c.member) else g) st.call_graph) } := by
  induction calls with
  | nil => intro st; rfl
  | cons c cs ih =>
    intro st
    rw [List.filterMap_cons, List.foldl_cons]
    by_cases hq : c.qualifier ≠ []
    · rw [if_pos hq, if_pos hq, applyOps_cons, ih]
      rfl
    · rw [if_neg hq, if_neg hq, ih]

theorem methodStep_ops (fc fp : List Char) (st : AnalyzerState) (m : JMethod) :
    methodStep fc fp st m = applyOps st (opsOfMethod fc fp m) := by
  rw [opsOfMethod, applyOps_cons, applyOps_cons, applyOps_edges]
  rfl

theorem applyOps_join_map {α : Type} (g : α → List IndexOp)
    (f : AnalyzerState → α → AnalyzerState) (hf : ∀ s a, f s a = applyOps s (g a)) :
    ∀ (l : List α) (s : AnalyzerState), l.foldl f s = applyOps s (l.map g).flatten := by
  intro l
  induction l with
  | nil => intro s; rfl
  | cons a t ih =>
    intro s
    rw [List.foldl_cons, ih, List.map_cons, List.flatten_cons, applyOps_append, hf]

theorem processClass_ops (pn fp : List Char) (st : AnalyzerState) (c : JClass) :
    processClass pn fp st c = applyOps st (opsOfClass pn fp c) := by
  rw [processClass_eq, opsOfClass, applyOps_cons,
    applyOps_join_map _ _ (methodStep_ops _ fp) c.methods]
  rfl

theorem process_java_content_ops (st : AnalyzerState) (f : JFile) (fp : List Char) :
    process_java_content st f fp = applyOps st (opsOfFile f fp) := by
  rw [process_java_content, opsOfFile,
    applyOps_join_map _ _ (processClass_ops f.packageName fp) f.classes]

theorem process_java_files_ops (st : AnalyzerState)
    (files : List (List Char × Option JFile)) :
    process_java_files st files = applyOps st (opsOfFiles files) := by
  rw [process_java_files, opsOfFiles]
  refine applyOps_join_map _ _ ?_ files st
  intro s pf
  cases hp : pf.2 with
  | some f => simp only [hp]; exact process_java_content_ops s f pf.1
  | none => simp only [hp]; rfl

theorem applyOps_class_map (L : List IndexOp) : ∀ s : AnalyzerState,
    (applyOps s L).class_map = L.foldl cmStep s.class_map := by
  induction L with
  | nil => intro s; rfl
  | cons op t ih =>
    intro s
    rw [applyOps_cons, List.foldl_cons, ih]
    cases op <;> rfl

theorem applyOps_method_map (L : List IndexOp) : ∀ s : AnalyzerState,
    (applyOps s L).method_map = L.foldl mmStep s.method_map := by
  induction L with
  | nil => intro s; rfl
  | cons op t ih =>
    intro s
    rw [applyOps_cons, List.foldl_cons, ih]
    cases op <;> rfl

theorem applyOps_call_graph (L : List IndexOp) : ∀ s : AnalyzerState,
    (applyOps s L).call_graph = L.foldl cgStep s.call_graph := by
  induction L with
  | nil => intro s; rfl
  | cons op t ih =>
    intro s
    rw [applyOps_cons, List.foldl_cons, ih]
    cases op <;> rfl

theorem ainsert_self_eq {α β : Type} [DecidableEq α] :
    ∀ (m : List (α × β)) (k : α) (v : β), alookup m k = some v → ainsert m k v = m := by
  intro m
  induction m with
  | nil => intro k v h; simp [alookup] at h
  | cons e t ih =>
    intro k v h
    rw [alookup] at h
    rw [ainsert]
    by_cases hk : k = e.1
    · rw [if_pos hk] at h ⊢
      obtain rfl := Option.some_inj.mp h
      rw [hk]
    · rw [if_neg hk] at h ⊢
      rw [ih k v h]

theorem alookup_ainsert_self {α β : Type} [DecidableEq α] :
    ∀ (m : List (α × β)) (k : α) (v : β), alookup (ainsert m k v) k = some v := by
  intro m
  induction m with
  | nil => intro k v; simp [ainsert, alookup]
  | cons e t ih =>
    intro k v
    rw [ainsert]
    by_cases hk : k = e.1
    · rw [if_pos hk, alookup, if_pos rfl]
    · rw [if_neg hk, alookup, if_neg hk, ih]

theorem alookup_ainsert_other {α β : Type} [DecidableEq α] :
    ∀ (m : List (α × β)) (k k' : α) (v : β), k' ≠ k →
      alookup (ainsert m k v) k' = alookup m k' := by
  intro m
  induction m with
  | nil => intro k k' v h; simp [ainsert, alookup, h]
  | cons e t ih =>
    intro k k' v h
    rw [ainsert]
    by_cases hk : k = e.1
    · rw [if_pos hk, alookup, alookup]
      rw [← hk]
      rw [if_neg h, if_neg (hk ▸ h)]
    · rw [if_neg hk, alookup, alookup]
      by_cases hk' : k' = e.1
      · rw [if_pos hk', if_pos hk']
      · rw [if_neg hk', if_neg hk', ih _ _ _ h]

theorem wfold_lookup_of_not_writes {α β : Type} [DecidableEq α] :
    ∀ (ws : List (Option (α × β))) (m : List (α × β)) (k : α), ¬WritesKey ws k →
      alookup (ws.foldl wStep m) k = alookup m k := by
  intro ws
  induction ws with
  | nil => intro m k _; rfl
  | cons w t ih =>
    intro m k h
    rw [List.foldl_cons]
    cases w with
    | none =>
      refine (ih _ k ?_).trans rfl
      rintro ⟨v, hv⟩
      exact h ⟨v, by simp [hv]⟩
    | some kv =>
      have hk : kv.1 ≠ k := by
        rintro rfl
        exact h ⟨kv.2, by simp⟩
      rw [show wStep m (some kv) = ainsert m kv.1 kv.2 from rfl]
      rw [ih _ k (fun ⟨v, hv⟩ => h ⟨v, by simp [hv]⟩)]
      exact alookup_ainsert_other m kv.1 k kv.2 (fun he => hk he.symm)

theorem wstep_lookup_isSome {α β : Type} [DecidableEq α] (m : List (α × β))
    (w : Option (α × β)) (k : α) (h : (alookup m k).isSome = true) :
    (alookup (wStep m w) k).isSome = true := by
  cases w with
  | none => exact h
  | some kv =>
    by_cases hk : k = kv.1
    · subst hk
      rw [show wStep m (some kv) = ainsert m kv.1 kv.2 from rfl,
        alookup_ainsert_self m kv.1 kv.2]
      rfl
    · rw [show wStep m (some kv) = ainsert m kv.1 kv.2 from rfl,
        alookup_ainsert_other m kv.1 k kv.2 hk]
      exact h

theorem wfold_lookup_isSome {α β : Type} [DecidableEq α] :
    ∀ (ws : List (Option (α × β))) (m : List (α × β)) (k : α),
      (alookup m k).isSome = true → (alookup (ws.foldl wStep m) k).isSome = true := by
  intro ws
  induction ws with
  | nil => intro m k h; exact h
  | cons w t ih =>
    intro m k h
    rw [List.foldl_cons]
    exact ih _ k (wstep_lookup_isSome m w k h)

theorem wfold_writes_isSome {α β : Type} [DecidableEq α] :
    ∀ (ws : List (Option (α × β))) (m : List (α × β)) (k : α), WritesKey ws k →
      (alookup (ws.foldl wStep m) k).isSome = true := by
  intro ws
  induction ws with
  | nil => rintro m k ⟨v, hv⟩; simp at hv
  | cons w t ih =>
    rintro m k ⟨v, hv⟩
    rw [List.foldl_cons]
    rcases List.mem_cons.mp hv with hv | hv
    · subst hv
      refine wfold_lookup_isSome t _ k ?_
      rw [show wStep m (some (k, v)) = ainsert m k v from rfl, alookup_ainsert_self]
      rfl
    · exact ih _ k ⟨v, hv⟩

theorem alookup_decomp {α β : Type} [DecidableEq α] :
    ∀ (m : List (α × β)) (k : α) (w : β), alookup m k = some w →
      ∃ a b, m = a ++ (k, w) :: b ∧ k ∉ akeys a := by
  intro m
  induction m with
  | nil => intro k w h; simp [alookup] at h
  | cons e t ih =>
    intro k w h
    rw [alookup] at h
    by_cases hk : k = e.1
    · rw [if_pos hk] at h
      obtain rfl := Option.some_inj.mp h
      exact ⟨[], t, by subst hk; cases e; rfl, by simp [akeys]⟩
    · rw [if_neg hk] at h
      obtain ⟨a, b, hab, hka⟩ := ih k w h
      refine ⟨e :: a, b, by rw [hab]; rfl, ?_⟩
      simp only [akeys, List.map_cons, List.mem_cons, not_or]
      exact ⟨hk, by simpa [akeys] using hka⟩

theorem ainsert_decomp {α β : Type} [DecidableEq α] :
    ∀ (a : List (α × β)) (k : α) (v u : β) (b : List (α × β)), k ∉ akeys a →
      ainsert (a ++ (k, v) :: b) k u = a ++ (k, u) :: b := by
  intro a
  induction a with
  | nil => intro k v u b _; rw [List.nil_append, List.nil_append, ainsert, if_pos rfl]
  | cons e t ih =>
    intro k v u b hk
    simp only [akeys, List.map_cons, List.mem_cons, not_or] at hk
    rw [List.cons_append, ainsert, if_neg hk.1, List.cons_append, ih k v u b (by
      simp only [akeys]; exact hk.2)]

theorem ainsert_keep_decomp {α β : Type} [DecidableEq α] :
    ∀ (a : List (α × β)) (k : α) (v : β) (b : List (α × β)) (k2 : α) (u : β),
      k2 ≠ k → k ∉ akeys a →
      (∃ a' b', k ∉ akeys a' ∧
        ainsert (a ++ (k, v) :: b) k2 u = a' ++ (k, v) :: b' ∧
        ∀ v2, ainsert (a ++ (k, v2) :: b) k2 u = a' ++ (k, v2) :: b') := by
  intro a
  induction a with
  | nil =>
    intro k v b k2 u hk2 _
    refine ⟨[(k, v)].tail ++ [], ainsert b k2 u, by simp [akeys], ?_, ?_⟩
    · rw [List.nil_append, ainsert, if_neg (fun h => hk2 h)]
      rfl
    · intro v2
      rw [List.nil_append, ainsert, if_neg (fun h => hk2 h)]
      rfl
  | cons e t ih =>
    intro k v b k2 u hk2 hk
    simp only [akeys, List.map_cons, List.mem_cons, not_or] at hk
    by_cases he : k2 = e.1
    · refine ⟨(k2, u) :: t, b, ?_, ?_, ?_⟩
      · simp only [akeys, List.map_cons, List.mem_cons, not_or]
        exact ⟨fun h => hk2 h.symm, hk.2⟩
      · rw [List.cons_append, ainsert, if_pos he]
        rfl
      · intro v2
        rw [List.cons_append, ainsert, if_pos he]
        rfl
    · obtain ⟨a', b', ha', heq, heq2⟩ := ih k v b k2 u hk2 (by simp only [akeys]; exact hk.2)
      refine ⟨e :: a', b', ?_, ?_, ?_⟩
      · simp only [akeys, List.map_cons, List.mem_cons, not_or]
        exact ⟨hk.1, by simpa [akeys] using ha'⟩
      · rw [List.cons_append, ainsert, if_neg he, heq]
        rfl
      · intro v2
        rw [List.cons_append, ainsert, if_neg he, heq2]
        rfl

theorem wfold_same_except {α β : Type} [DecidableEq α] :
    ∀ (ws : List (Option (α × β))) (k : α) (a b : List (α × β)) (v1 v2 : β),
      k ∉ akeys a → WritesKey ws k →
      ws.foldl wStep (a ++ (k, v1) :: b) = ws.foldl wStep (a ++ (k, v2) :: b) := by
  intro ws
  induction ws with
  | nil => rintro k a b v1 v2 _ ⟨v, hv⟩; simp at hv
  | cons w t ih =>
    rintro k a b v1 v2 hka hw
    rw [List.foldl_cons, List.foldl_cons]
    cases w with
    | none =>
      obtain ⟨v, hv⟩ := hw
      rcases List.mem_cons.mp hv with hv | hv
      · exact absurd hv (by simp)
      · exact ih k a b v1 v2 hka ⟨v, hv⟩
    | some kv =>
      by_cases hkk : kv.1 = k
      · rw [show wStep (a ++ (k, v1) :: b) (some kv) = ainsert (a ++ (k, v1) :: b) kv.1 kv.2
          from rfl, show wStep (a ++ (k, v2) :: b) (some kv) =
          ainsert (a ++ (k, v2) :: b) kv.1 kv.2 from rfl, hkk,
          ainsert_decomp a k v1 kv.2 b hka, ainsert_decomp a k v2 kv.2 b hka]
      · obtain ⟨a', b', ha', heq, heq2⟩ :=
          ainsert_keep_decomp a k v1 b kv.1 kv.2 hkk hka
        rw [show wStep (a ++ (k, v1) :: b) (some kv) = ainsert (a ++ (k, v1) :: b) kv.1 kv.2
          from rfl, show wStep (a ++ (k, v2) :: b) (some kv) =
          ainsert (a ++ (k, v2) :: b) kv.1 kv.2 from rfl, heq, heq2 v2]
        obtain ⟨v, hv⟩ := hw
        rcases List.mem_cons.mp hv with hv | hv
        · rw [Option.some_inj] at hv
          exact absurd (congrArg Prod.fst hv).symm hkk
        · exact ih k a' b' v1 v2 ha' ⟨v, hv⟩

theorem wfold_replay {α β : Type} [DecidableEq α] :
    ∀ (ws : List (Option (α × β))) (m : List (α × β)),
      ws.foldl wStep (ws.foldl wStep m) = ws.foldl wStep m := by
  intro ws
  induction ws with
  | nil => intro m; rfl
  | cons w t ih =>
    intro m
    cases w with
    | none =>
      rw [List.foldl_cons, List.foldl_cons]
      exact ih _
    | some kv =>
      rw [List.foldl_cons, List.foldl_cons]
      by_cases hw : WritesKey t kv.1
      · obtain ⟨w0, hw0⟩ := Option.isSome_iff_exists.mp
          (wfold_writes_isSome t (ainsert m kv.1 kv.2) kv.1 hw)
        obtain ⟨a, b, hab, hka⟩ := alookup_decomp _ kv.1 w0 hw0
        rw [show wStep m (some kv) = ainsert m kv.1 kv.2 from rfl,
          show ∀ x, wStep x (some kv) = ainsert x kv.1 kv.2 from fun x => rfl]
        rw [hab, ainsert_decomp a kv.1 w0 kv.2 b hka,
          wfold_same_except t kv.1 a b kv.2 w0 hka hw, ← hab]
        exact ih _
      · rw [show wStep m (some kv) = ainsert m kv.1 kv.2 from rfl,
          show ∀ x, wStep x (some kv) = ainsert x kv.1 kv.2 from fun x => rfl]
        have hl : alookup (t.foldl wStep (ainsert m kv.1 kv.2)) kv.1 = some kv.2 := by
          rw [wfold_lookup_of_not_writes t _ kv.1 hw]
          exact alookup_ainsert_self m kv.1 kv.2
        rw [ainsert_self_eq _ kv.1 kv.2 hl]
        exact ih _

theorem cmfold_eq_wfold : ∀ (L : List IndexOp) (m : List (List Char × List Char)),
    L.foldl cmStep m = (L.map classWrite).foldl wStep m := by
  intro L
  induction L with
  | nil => intro m; rfl
  | cons op t ih =>
    intro m
    rw [List.foldl_cons, List.map_cons, List.foldl_cons, ih]
    cases op <;> rfl

theorem mmfold_eq_wfold : ∀ (L : List IndexOp) (m : List (List Char × MethodInfo)),
    L.foldl mmStep m = (L.map methodWrite).foldl wStep m := by
  intro L
  induction L with
  | nil => intro m; rfl
  | cons op t ih =>
    intro m
    rw [List.foldl_cons, List.map_cons, List.foldl_cons, ih]
    cases op <;> rfl

/-! ### Replay of the call-graph operations -/

theorem mem_sadd_self {α : Type} [DecidableEq α] (s : List α) (a b : α) (h : a ∈ s) :
    a ∈ sadd s b := by
  rw [sadd]
  by_cases hb : b ∈ s
  · rw [if_pos hb]; exact h
  · rw [if_neg hb]; exact List.mem_append_left _ h

theorem mem_sadd_new {α : Type} [DecidableEq α] (s : List α) (b : α) : b ∈ sadd s b := by
  rw [sadd]
  by_cases hb : b ∈ s
  · rw [if_pos hb]; exact hb
  · rw [if_neg hb]; exact List.mem_append_right _ (by simp)

theorem sadd_mem_eq {α : Type} [DecidableEq α] (s : List α) (b : α) (h : b ∈ s) :
    sadd s b = s := if_pos h

theorem alookup_append_single {α β : Type} [DecidableEq α] :
    ∀ (g : List (α × β)) (k : α) (v : β), alookup g k = none →
      alookup (g ++ [(k, v)]) k = some v := by
  intro g
  induction g with
  | nil => intro k v _; rw [List.nil_append, alookup, if_pos rfl]
  | cons e t ih =>
    intro k v h
    rw [alookup] at h
    by_cases hk : k = e.1
    · rw [if_pos hk] at h
      exact absurd h (by simp)
    · rw [if_neg hk] at h
      rw [List.cons_append, alookup, if_neg hk]
      exact ih k v h

theorem alookup_append_single_other {α β : Type} [DecidableEq α] :
    ∀ (g : List (α × β)) (k k2 : α) (v : β), k2 ≠ k →
      alookup (g ++ [(k, v)]) k2 = alookup g k2 := by
  intro g
  induction g with
  | nil =>
    intro k k2 v h
    simp [alookup, h]
  | cons e t ih =>
    intro k k2 v h
    rw [List.cons_append, alookup, alookup]
    by_cases hk : k2 = e.1
    · rw [if_pos hk, if_pos hk]
    · rw [if_neg hk, if_neg hk]
      exact ih k k2 v h

theorem alookup_cgInit_self (g : List (List Char × List (List Char))) (k : List Char) :
    alookup (cgInit g k) k = some ((alookup g k).getD []) := by
  rw [cgInit]
  cases h : alookup g k with
  | some s => rw [h]; rfl
  | none =>
    simp only [Option.getD_none]
    exact alookup_append_single g k [] h

theorem alookup_cgInit_other (g : List (List Char × List (List Char))) (k k2 : List Char)
    (h : k2 ≠ k) : alookup (cgInit g k) k2 = alookup g k2 := by
  rw [cgInit]
  cases hg : alookup g k with
  | some s => rfl
  | none => exact alookup_append_single_other g k k2 [] h

theorem alookup_cgAdd_self (g : List (List Char × List (List Char))) (k v : List Char) :
    alookup (cgAdd g k v) k = (alookup g k).map fun s => sadd s v := by
  induction g with
  | nil => simp [cgAdd, alookup]
  | cons e t ih =>
    rw [cgAdd]
    by_cases hk : k = e.1
    · rw [if_pos hk, alookup, if_pos hk, alookup, if_pos hk]
      rfl
    · rw [if_neg hk, alookup, if_neg hk, alookup, if_neg hk, ih]

theorem alookup_cgAdd_other (g : List (List Char × List (List Char))) (k k2 v : List Char)
    (h : k2 ≠ k) : alookup (cgAdd g k v) k2 = alookup g k2 := by
  induction g with
  | nil => simp [cgAdd, alookup]
  | cons e t ih =>
    rw [cgAdd]
    by_cases hk : k = e.1
    · rw [if_pos hk]
      have hk2 : ¬ k2 = e.1 := hk ▸ h
      simp [alookup, hk2]
    · rw [if_neg hk, alookup, alookup]
      by_cases hk2 : k2 = e.1
      · rw [if_pos hk2, if_pos hk2]
      · rw [if_neg hk2, if_neg hk2]
        exact ih

theorem cgInit_noop (g : List (List Char × List (List Char))) (k : List Char)
    (h : (alookup g k).isSome) : cgInit g k = g := by
  rw [cgInit]
  cases hg : alookup g k with
  | some s => rfl
  | none => rw [hg] at h; exact absurd h (by simp)

theorem cgAdd_noop : ∀ (g : List (List Char × List (List Char))) (k v : List Char),
    (∀ s, alookup g k = some s → v ∈ s) → cgAdd g k v = g := by
  intro g
  induction g with
  | nil => intro k v _; rfl
  | cons e t ih =>
    intro k v h
    rw [cgAdd]
    by_cases hk : k = e.1
    · rw [if_pos hk]
      have hv : v ∈ e.2 := h e.2 (by rw [alookup, if_pos hk])
      rw [sadd_mem_eq e.2 v hv]
    · rw [if_neg hk]
      rw [ih k v fun s hs => h s (by rw [alookup, if_neg hk]; exact hs)]

theorem cgStep_isSome (g : List (List Char × List (List Char))) (op : IndexOp)
    (k : List Char) (h : (alookup g k).isSome) : (alookup (cgStep g op) k).isSome := by
  cases op with
  | insClass k2 v => exact h
  | insMethod k2 v => exact h
  | initCG k2 =>
    simp only [cgStep]
    by_cases hk : k = k2
    · subst hk; rw [alookup_cgInit_self]; rfl
    · rw [alookup_cgInit_other g k2 k hk]; exact h
  | addEdge k2 v =>
    simp only [cgStep]
    by_cases hk : k = k2
    · subst hk
      obtain ⟨s, hs⟩ := Option.isSome_iff_exists.mp h
      rw [alookup_cgAdd_self, hs]; rfl
    · rw [alookup_cgAdd_other g k2 k v hk]; exact h

theorem cgfold_isSome (L : List IndexOp) : ∀ (g : List (List Char × List (List Char)))
    (k : List Char), (alookup g k).isSome → (alookup (L.foldl cgStep g) k).isSome := by
  induction L with
  | nil => intro g k h; exact h
  | cons op t ih =>
    intro g k h
    rw [List.foldl_cons]
    exact ih _ k (cgStep_isSome g op k h)

theorem cgStep_mem (g : List (List Char × List (List Char))) (op : IndexOp)
    (k v : List Char) (h : ∃ s, alookup g k = some s ∧ v ∈ s) :
    ∃ s, alookup (cgStep g op) k = some s ∧ v ∈ s := by
  obtain ⟨s, hs, hv⟩ := h
  cases op with
  | insClass k2 w => exact ⟨s, hs, hv⟩
  | insMethod k2 w => exact ⟨s, hs, hv⟩
  | initCG k2 =>
    simp only [cgStep]
    by_cases hk : k = k2
    · subst hk
      rw [alookup_cgInit_self, hs]
      exact ⟨s, rfl, hv⟩
    · rw [alookup_cgInit_other g k2 k hk]
      exact ⟨s, hs, hv⟩
  | addEdge k2 w =>
    simp only [cgStep]
    by_cases hk : k = k2
    · subst hk
      rw [alookup_cgAdd_self, hs]
      exact ⟨sadd s w, rfl, mem_sadd_self s v w hv⟩
    · rw [alookup_cgAdd_other g k2 k w hk]
      exact ⟨s, hs, hv⟩

theorem cgfold_mem (L : List IndexOp) : ∀ (g : List (List Char × List (List Char)))
    (k v : List Char), (∃ s, alookup g k = some s ∧ v ∈ s) →
    ∃ s, alookup (L.foldl cgStep g) k = some s ∧ v ∈ s := by
  induction L with
  | nil => intro g k v h; exact h
  | cons op t ih =>
    intro g k v h
    rw [List.foldl_cons]
    exact ih _ k v (cgStep_mem g op k v h)

theorem cgfold_initCG_isSome (L : List IndexOp) : ∀ (g : List (List Char × List (List Char)))
    (k : List Char), IndexOp.initCG k ∈ L → (alookup (L.foldl cgStep g) k).isSome := by
  induction L with
  | nil => intro g k h; exact absurd h (List.not_mem_nil _)
  | cons op t ih =>
    intro g k h
    rw [List.foldl_cons]
    rcases List.mem_cons.mp h with h | h
    · subst h
      refine cgfold_isSome t _ k ?_
      simp only [cgStep]
      rw [alookup_cgInit_self]
      rfl
    · exact ih _ k h

theorem cgfold_addEdge_mem (L : List IndexOp) :
    ∀ (g : List (List Char × List (List Char))) (seen : List (List Char)) (k v : List Char),
      WFcg L seen → (∀ j ∈ seen, (alookup g j).isSome) → IndexOp.addEdge k v ∈ L →
      ∃ s, alookup (L.foldl cgStep g) k = some s ∧ v ∈ s := by
  induction L with
  | nil => intro g seen k v _ _ h; exact absurd h (List.not_mem_nil _)
  | cons op t ih =>
    intro g seen k v hwf hseen hmem
    rw [List.foldl_cons]
    cases op with
    | insClass k2 w =>
      rcases List.mem_cons.mp hmem with h | h
      · exact absurd h (by simp)
      · exact ih _ seen k v hwf (fun j hj => cgStep_isSome g _ j (hseen j hj)) h
    | insMethod k2 w =>
      rcases List.mem_cons.mp hmem with h | h
      · exact absurd h (by simp)
      · exact ih _ seen k v hwf (fun j hj => cgStep_isSome g _ j (hseen j hj)) h
    | initCG k2 =>
      rcases List.mem_cons.mp hmem with h | h
      · exact absurd h (by simp)
      · refine ih _ (k2 :: seen) k v hwf ?_ h
        intro j hj
        rcases List.mem_cons.mp hj with hj | hj
        · subst hj
          simp only [cgStep]
          rw [alookup_cgInit_self]
          rfl
        · exact cgStep_isSome g _ j (hseen j hj)
    | addEdge k2 w =>
      rcases List.mem_cons.mp hmem with h | h
      · injection h with hk hw
        subst hk
        subst hw
        obtain ⟨hks, _⟩ := hwf
        obtain ⟨s, hs⟩ := Option.isSome_iff_exists.mp (hseen k hks)
        refine cgfold_mem t _ k v ?_
        simp only [cgStep]
        rw [alookup_cgAdd_self, hs]
        exact ⟨sadd s v, rfl, mem_sadd_new s v⟩
      · exact ih _ seen k v hwf.2 (fun j hj => cgStep_isSome g _ j (hseen j hj)) h

theorem cgfold_noop_all (L : List IndexOp) :
    ∀ g : List (List Char × List (List Char)),
      (∀ op ∈ L, cgStep g op = g) → L.foldl cgStep g = g := by
  induction L with
  | nil => intro g _; rfl
  | cons op t ih =>
    intro g h
    rw [List.foldl_cons, h op (List.mem_cons_self _ _)]
    exact ih g fun o ho => h o (List.mem_cons_of_mem _ ho)

theorem cg_replay (L : List IndexOp) (g : List (List Char × List (List Char)))
    (hwf : WFcg L []) :
    L.foldl cgStep (L.foldl cgStep g) = L.foldl cgStep g := by
  refine cgfold_noop_all L _ ?_
  intro op hop
  cases op with
  | insClass k v => rfl
  | insMethod k v => rfl
  | initCG k =>
    simp only [cgStep]
    exact cgInit_noop _ k (cgfold_initCG_isSome L g k hop)
  | addEdge k v =>
    simp only [cgStep]
    obtain ⟨s, hs, hv⟩ := cgfold_addEdge_mem L g [] k v hwf
      (fun j hj => absurd hj (List.not_mem_nil _)) hop
    refine cgAdd_noop _ k v ?_
    intro s2 hs2
    rw [hs] at hs2
    rw [Option.some_inj] at hs2
    rw [← hs2]
    exact hv

theorem WFcg_addEdges (key : List Char) (calls : List JCall) :
    ∀ seen, key ∈ seen →
      WFcg (calls.filterMap fun c =>
        if c.qualifier ≠ [] then
          some (.addEdge key (c.qualifier ++ '.' :: c.member))
        else none) seen := by
  induction calls with
  | nil => intro seen _; trivial
  | cons c cs ih =>
    intro seen hk
    rw [List.filterMap_cons]
    by_cases hq : c.qualifier ≠ []
    · rw [if_pos hq]
      exact ⟨hk, ih seen hk⟩
    · rw [if_neg hq]
      exact ih seen hk

theorem WFcg_opsOfMethod (fc fp : List Char) (m : JMethod) (seen : List (List Char)) :
    WFcg (opsOfMethod fc fp m) seen := by
  rw [opsOfMethod]
  exact WFcg_addEdges (fc ++ '.' :: m.name) m.calls _ (List.mem_cons_self _ _)

theorem WFcg_append (L1 : List IndexOp) :
    ∀ (L2 : List IndexOp) (seen : List (List Char)), WFcg L1 seen →
      (∀ s2, WFcg L2 s2) → WFcg (L1 ++ L2) seen := by
  induction L1 with
  | nil => intro L2 seen _ h2; exact h2 seen
  | cons op t ih =>
    intro L2 seen h1 h2
    cases op with
    | insClass k v => exact ih L2 seen h1 h2
    | insMethod k v => exact ih L2 seen h1 h2
    | initCG k => exact ih L2 (k :: seen) h1 h2
    | addEdge k v => exact ⟨h1.1, ih L2 seen h1.2 h2⟩

theorem WFcg_flatten {α : Type} (g : α → List IndexOp)
    (hg : ∀ a seen, WFcg (g a) seen) :
    ∀ (l : List α) (seen : List (List Char)), WFcg (l.map g).flatten seen := by
  intro l
  induction l with
  | nil => intro seen; trivial
  | cons a t ih =>
    intro seen
    rw [List.map_cons, List.flatten_cons]
    exact WFcg_append (g a) _ seen (hg a seen) fun s2 => ih s2

theorem WFcg_opsOfClass (pn fp : List Char) (c : JClass) (seen : List (List Char)) :
    WFcg (opsOfClass pn fp c) seen := by
  rw [opsOfClass]
  exact WFcg_flatten _ (fun m s => WFcg_opsOfMethod _ fp m s) c.methods seen

theorem WFcg_opsOfFile (f : JFile) (fp : List Char) (seen : List (List Char)) :
    WFcg (opsOfFile f fp) seen := by
  rw [opsOfFile]
  exact WFcg_flatten _ (fun c s => WFcg_opsOfClass f.packageName fp c s) f.classes seen

theorem WFcg_opsOfFiles (files : List (List Char × Option JFile))
    (seen : List (List Char)) : WFcg (opsOfFiles files) seen := by
  rw [opsOfFiles]
  refine WFcg_flatten _ ?_ files seen
  intro pf s
  rcases pf with ⟨fp, of⟩
  cases of with
  | some f => exact WFcg_opsOfFile f fp s
  | none => trivial

theorem AnalyzerState_ext (a b : AnalyzerState) (h1 : a.class_map = b.class_map)
    (h2 : a.method_map = b.method_map) (h3 : a.call_graph = b.call_graph) : a = b := by
  cases a
  cases b
  congr 1

theorem process_java_files_idem (st : AnalyzerState)
    (files : List (List Char × Option JFile)) :
    process_java_files (process_java_files st files) files =
      process_java_files st files := by
  rw [process_java_files_ops st files, process_java_files_ops _ files]
  refine AnalyzerState_ext _ _ ?_ ?_ ?_
  · rw [applyOps_class_map, applyOps_class_map,
      cmfold_eq_wfold, cmfold_eq_wfold]
    exact wfold_replay _ _
  · rw [applyOps_method_map, applyOps_method_map,
      mmfold_eq_wfold, mmfold_eq_wfold]
    exact wfold_replay _ _
  · rw [applyOps_call_graph, applyOps_call_graph]
    exact cg_replay _ _ (WFcg_opsOfFiles files [])

/-- C8: For every fixed file set (and any starting index state) and fixed commit
metadata, running indexing a second time over the same files leaves the class map,
method map and call graph identical (the second `process_java_files` run is the
identity on the state produced by the first), and the ordered ranking output
computed by `_weight_methods` from the re-indexed state — over the related set
recomputed from that state, with the same commit metadata, exception-handling
data and evaluation time — equals the ranking computed after the first run. -/
theorem claim_C8 (st : AnalyzerState) (files : List (List Char × Option JFile))
    (dd : List Char → Option Int)
    (commits : List (List Char × List (List Char × List Char)))
    (handling : List (List Char × (Bool × Bool)))
    (cls mth : List Char) (depth : Nat) :
    process_java_files (process_java_files st files) files =
      process_java_files st files ∧
    weight_methods dd (process_java_files (process_java_files st files) files)
        (find_related_methods (process_java_files (process_java_files st files) files)
          cls mth depth) commits handling =
      weight_methods dd (process_java_files st files)
        (find_related_methods (process_java_files st files) cls mth depth)
        commits handling := by
  refine ⟨process_java_files_idem st files, ?_⟩
  rw [process_java_files_idem st files]

theorem wordDot_not_space {c : Char} (h : isWordDot c = true) : isSpaceChar c = false := by
  rw [isWordDot, Bool.or_eq_true] at h
  rcases h with h | h
  · exact word_not_space h
  · rw [decide_eq_true_eq] at h
    subst h
    decide

theorem word_to_wordDot {c : Char} (h : isWordChar c = true) : isWordDot c = true := by
  rw [isWordDot, h, Bool.true_or]

theorem digit_to_word {c : Char} (h : c.isDigit = true) : isWordChar c = true := by
  rw [isWordChar, h]
  simp

theorem rev_split {M cs run : List Char} (h : run.reverse = M ++ ('.' :: cs)) :
    run = cs.reverse ++ ('.' :: M.reverse) := by
  have h2 := congrArg List.reverse h
  rw [List.reverse_reverse] at h2
  rw [h2]
  simp

theorem splitLastSeg_sound {run cls mth : List Char}
    (h : splitLastSeg run = some (cls, mth)) :
    run = cls ++ ('.' :: mth) ∧ cls ≠ [] ∧ mth ≠ [] ∧ AllClass isWordChar mth := by
  rw [splitLastSeg] at h
  cases hd : run.reverse.dropWhile isWordChar with
  | nil => rw [hd] at h; exact absurd h (by simp)
  | cons c cs =>
    rw [hd] at h
    have hmtch : (if c = '.' ∧ run.reverse.takeWhile isWordChar ≠ [] ∧ cs ≠ [] then
        some (cs.reverse, (run.reverse.takeWhile isWordChar).reverse) else none) =
        some (cls, mth) := h
    by_cases hc : c = '.' ∧ run.reverse.takeWhile isWordChar ≠ [] ∧ cs ≠ []
    · rw [if_pos hc, Option.some_inj, Prod.mk.injEq] at hmtch
      obtain ⟨h1, h2⟩ := hmtch
      obtain ⟨hdot, hm, hcs⟩ := hc
      have hrun : run.reverse = run.reverse.takeWhile isWordChar ++ ('.' :: cs) := by
        rw [← hdot, ← hd]
        exact (List.takeWhile_append_dropWhile isWordChar run.reverse).symm
      have hrun2 := rev_split hrun
      refine ⟨?_, ?_, ?_, ?_⟩
      · rw [hrun2, h2, h1]
      · rw [← h1]; simpa using hcs
      · rw [← h2]; simpa using hm
      · intro x hx
        rw [← h2] at hx
        rw [List.mem_reverse] at hx
        exact List.mem_takeWhile_imp hx
    · rw [if_neg hc] at hmtch
      exact absurd hmtch (by simp)

theorem head_cond_cons {p : Char → Bool} {x : Char} {r : List Char} (hx : p x = false) :
    ∀ c, ((x :: r) : List Char).head? = some c → p c = false := by
  intro c hc
  rw [List.head?_cons, Option.some_inj] at hc
  rw [← hc]
  exact hx

theorem head_cond_of_append {p : Char → Bool} {v r : List Char} (hv : v ≠ [])
    (hall : ∀ c ∈ v, p c = false) : ∀ c, (v ++ r).head? = some c → p c = false := by
  cases v with
  | nil => exact absurd rfl hv
  | cons x xs =>
    rw [List.cons_append]
    exact head_cond_cons (hall x (List.mem_cons_self _ _))

theorem splitLastSeg_complete {cls mth : List Char} (hcls : cls ≠ []) (hmth : mth ≠ [])
    (hall : AllClass isWordChar mth) :
    splitLastSeg (cls ++ ('.' :: mth)) = some (cls, mth) := by
  have hrev : (cls ++ ('.' :: mth)).reverse = mth.reverse ++ ('.' :: cls.reverse) := by
    simp
  have hsplit := splitWhile_eq mth.reverse ('.' :: cls.reverse)
    (fun c hc => hall c (List.mem_reverse.mp hc)) (head_cond_cons (by decide))
  have hm : mth.reverse ≠ [] := by simpa using hmth
  have hc2 : cls.reverse ≠ [] := by simpa using hcls
  rw [splitLastSeg, hrev, hsplit.1, hsplit.2]
  show (if ('.' : Char) = '.' ∧ mth.reverse ≠ [] ∧ cls.reverse ≠ [] then
      some (cls.reverse.reverse, mth.reverse.reverse) else none) = some (cls, mth)
  rw [if_pos ⟨rfl, hm, hc2⟩]
  simp

theorem AllClass_append {p : Char → Bool} {a b : List Char} (ha : AllClass p a)
    (hb : AllClass p b) : AllClass p (a ++ b) := by
  intro c hc
  rcases List.mem_append.mp hc with h | h
  · exact ha c h
  · exact hb c h

theorem AllClass_cons {p : Char → Bool} {c : Char} {l : List Char} (hc : p c = true)
    (hl : AllClass p l) : AllClass p (c :: l) := by
  intro x hx
  rcases List.mem_cons.mp hx with h | h
  · rw [h]; exact hc
  · exact hl x h

theorem AllClass_mono {p q : Char → Bool} (hpq : ∀ c, p c = true → q c = true)
    {l : List Char} (hl : AllClass p l) : AllClass q l :=
  fun c hc => hpq c (hl c hc)

theorem matchFrameAt_complete {fr : StackFrame} {t : List Char} (h : FrameShape fr t)
    (rem : List Char) : matchFrameAt (t ++ rem) = some (fr, rem) := by
  obtain ⟨sp, ds, hsp, hspall, hcn, hcnall, hmn, hmnall, hfn, hfnall,
    hds, hdsall, hln, ht⟩ := h
  subst ht
  have hin : ('a' :: 't' :: (sp ++ (fr.class_name ++ ('.' :: (fr.method_name ++
      ('(' :: (fr.file_name ++ (':' :: (ds ++ [')']))))))))) ++ rem =
      'a' :: 't' :: (sp ++ (fr.class_name ++ ('.' :: (fr.method_name ++
      ('(' :: (fr.file_name ++ (':' :: (ds ++ (')' :: rem))))))))) := by
    simp
  rw [hin]
  have h1 : expectLit "at".data ('a' :: 't' :: (sp ++ (fr.class_name ++ ('.' ::
      (fr.method_name ++ ('(' :: (fr.file_name ++ (':' :: (ds ++ (')' :: rem)))))))))) =
      some (sp ++ (fr.class_name ++ ('.' :: (fr.method_name ++
      ('(' :: (fr.file_name ++ (':' :: (ds ++ (')' :: rem))))))))) :=
    expectLit_eq_some.mpr rfl
  have h2 : grabClass1 isSpaceChar (sp ++ (fr.class_name ++ ('.' :: (fr.method_name ++
      ('(' :: (fr.file_name ++ (':' :: (ds ++ (')' :: rem))))))))) =
      some (sp, fr.class_name ++ ('.' :: (fr.method_name ++
      ('(' :: (fr.file_name ++ (':' :: (ds ++ (')' :: rem)))))))) :=
    grabClass1_eq_some.mpr ⟨hsp, hspall,
      head_cond_of_append hcn (fun c hc => wordDot_not_space (hcnall c hc)), rfl⟩
  have hR2 : fr.class_name ++ ('.' :: (fr.method_name ++ ('(' :: (fr.file_name ++
      (':' :: (ds ++ (')' :: rem))))))) = (fr.class_name ++ ('.' :: fr.method_name)) ++
      ('(' :: (fr.file_name ++ (':' :: (ds ++ (')' :: rem))))) := by
    simp
  have hsplit2 := splitWhile_eq (fr.class_name ++ ('.' :: fr.method_name))
    ('(' :: (fr.file_name ++ (':' :: (ds ++ (')' :: rem)))))
    (AllClass_append hcnall (AllClass_cons (by decide)
      (AllClass_mono (fun c hc => word_to_wordDot hc) hmnall)))
    (head_cond_cons (by decide))
  rw [← hR2] at hsplit2
  have h3 : splitLastSeg ((fr.class_name ++ ('.' :: (fr.method_name ++ ('(' ::
      (fr.file_name ++ (':' :: (ds ++ (')' :: rem)))))))).takeWhile isWordDot) =
      some (fr.class_name, fr.method_name) := by
    rw [hsplit2.1]
    exact splitLastSeg_complete hcn hmn hmnall
  have h4 : expectChar '(' ((fr.class_name ++ ('.' :: (fr.method_name ++ ('(' ::
      (fr.file_name ++ (':' :: (ds ++ (')' :: rem)))))))).dropWhile isWordDot) =
      some (fr.file_name ++ (':' :: (ds ++ (')' :: rem)))) := by
    rw [hsplit2.2]
    exact expectChar_eq_some.mpr rfl
  have h5 : grabClass1 isWordDot (fr.file_name ++ (':' :: (ds ++ (')' :: rem)))) =
      some (fr.file_name, ':' :: (ds ++ (')' :: rem))) :=
    grabClass1_eq_some.mpr ⟨hfn, hfnall, head_cond_cons (by decide), rfl⟩
  have h6 : expectChar ':' (':' :: (ds ++ (')' :: rem))) = some (ds ++ (')' :: rem)) :=
    expectChar_eq_some.mpr rfl
  have h7 : grabClass1 Char.isDigit (ds ++ (')' :: rem)) = some (ds, ')' :: rem) :=
    grabClass1_eq_some.mpr ⟨hds, hdsall, head_cond_cons (by decide), rfl⟩
  have h8 : expectChar ')' (')' :: rem) = some rem := expectChar_eq_some.mpr rfl
  simp only [matchFrameAt, h1, h2, h3, h4, h5, h6, h7, h8, Option.some_bind]
  rw [← hln]

theorem matchFrameAt_sound {l : List Char} {fr : StackFrame} {rem : List Char}
    (h : matchFrameAt l = some (fr, rem)) :
    ∃ t, l = t ++ rem ∧ FrameShape fr t := by
  rw [matchFrameAt] at h
  simp only [Option.bind_eq_some] at h
  obtain ⟨r1, h1, ⟨sp, r2⟩, h2, ⟨cn, mn⟩, h3, r3, h4, ⟨fn, r4⟩, h5, r5, h6,
    ⟨ds, r6⟩, h7, r7, h8, hfin⟩ := h
  simp only [] at h3 h4 h6 h8 hfin
  rw [Option.some_inj, Prod.mk.injEq] at hfin
  obtain ⟨hfr, hrem⟩ := hfin
  rw [expectLit_eq_some] at h1
  obtain ⟨hspne, hspall, hr2head, hr1⟩ := grabClass1_eq_some.mp h2
  obtain ⟨hrun, hcnne, hmnne, hmnall⟩ := splitLastSeg_sound h3
  rw [expectChar_eq_some] at h4
  obtain ⟨hfnne, hfnall, hr4head, hr3⟩ := grabClass1_eq_some.mp h5
  rw [expectChar_eq_some] at h6
  obtain ⟨hdsne, hdsall, hr6head, hr5⟩ := grabClass1_eq_some.mp h7
  rw [expectChar_eq_some] at h8
  subst hrem
  subst hfr
  have hr2 : r2 = (cn ++ ('.' :: mn)) ++ ('(' :: r3) := by
    rw [← hrun, ← h4]
    exact (List.takeWhile_append_dropWhile isWordDot r2).symm
  have hcnall : AllClass isWordDot cn := by
    intro c hc
    have hmem : c ∈ r2.takeWhile isWordDot := by
      rw [hrun]
      exact List.mem_append_left _ hc
    exact List.mem_takeWhile_imp hmem
  refine ⟨'a' :: 't' :: (sp ++ (cn ++ ('.' :: (mn ++ ('(' :: (fn ++ (':' ::
    (ds ++ [')'])))))))), ?_, ?_⟩
  · rw [h1, hr1, hr2, hr3, h6, hr5, h8]
    simp
  · exact ⟨sp, ds, hspne, hspall, hcnne, hcnall, hmnne, hmnall, hfnne, hfnall,
      hdsne, hdsall, rfl, rfl⟩

theorem matchFrameAt_head {l : List Char} {fr : StackFrame} {rem : List Char}
    (h : matchFrameAt l = some (fr, rem)) :
    ∃ c r, l = 'a' :: 't' :: c :: r ∧ isSpaceChar c = true := by
  obtain ⟨t, hl, hshape⟩ := matchFrameAt_sound h
  obtain ⟨sp, ds, hsp, hspall, _, _, _, _, _, _, _, _, _, ht⟩ := hshape
  cases sp with
  | nil => exact absurd rfl hsp
  | cons c sp' =>
    subst ht
    rw [hl]
    refine ⟨c, sp' ++ ((fr.class_name ++ ('.' :: (fr.method_name ++ ('(' ::
      (fr.file_name ++ (':' :: (ds ++ [')']))))))) ++ rem), ?_,
      hspall c (List.mem_cons_self _ _)⟩
    simp

theorem space_precede {nos : List Char} (hnos : ∀ c ∈ nos, isSpaceChar c = false) :
    ∀ (sp : List Char), AllClass isSpaceChar sp →
    ∀ (a : List Char) (c : Char) (r : List Char), sp ++ nos = a ++ (c :: r) →
      isSpaceChar c = true →
      a = [] ∨ ∃ a2 c2, a = a2 ++ [c2] ∧ isSpaceChar c2 = true := by
  intro sp
  induction sp with
  | nil =>
    intro _ a c r heq hc
    exfalso
    have hmem : c ∈ nos := by
      rw [List.nil_append] at heq
      rw [heq]
      exact List.mem_append_right _ (List.mem_cons_self _ _)
    rw [hnos c hmem] at hc
    exact absurd hc (by simp)
  | cons s sp' ih =>
    intro hall a c r heq hc
    cases a with
    | nil => exact Or.inl rfl
    | cons x a' =>
      rw [List.cons_append, List.cons_append] at heq
      injection heq with hx heq'
      rcases ih (fun d hd => hall d (List.mem_cons_of_mem _ hd)) a' c r heq' hc with
        h | ⟨a2, c2, ha2, hc2⟩
      · subst h
        refine Or.inr ⟨[], x, by simp, ?_⟩
        rw [← hx]
        exact hall s (List.mem_cons_self _ _)
      · exact Or.inr ⟨x :: a2, c2, by rw [ha2, List.cons_append], hc2⟩

theorem frame_nos_no_space {cn mn fn ds : List Char} (hcn : AllClass isWordDot cn)
    (hmn : AllClass isWordChar mn) (hfn : AllClass isWordDot fn)
    (hds : AllClass Char.isDigit ds) :
    ∀ c ∈ cn ++ ('.' :: (mn ++ ('(' :: (fn ++ (':' :: (ds ++ ([')'] : List Char))))))),
      isSpaceChar c = false := by
  intro c hc
  simp only [List.mem_append, List.mem_cons, List.mem_singleton,
    List.not_mem_nil, or_false] at hc
  rcases hc with hc | hc | hc | hc | hc | hc | hc | hc
  · exact wordDot_not_space (hcn c hc)
  · subst hc; decide
  · exact word_not_space (hmn c hc)
  · subst hc; decide
  · exact wordDot_not_space (hfn c hc)
  · subst hc; decide
  · exact word_not_space (digit_to_word (hds c hc))
  · subst hc; decide

theorem matchFrameAt_no_inner {fr : StackFrame} {t : List Char} (hsh : FrameShape fr t)
    {a b : List Char} (hab : t = a ++ b) (ha : a ≠ []) (hb : b ≠ []) (rem : List Char) :
    matchFrameAt (b ++ rem) = none := by
  cases hm : matchFrameAt (b ++ rem) with
  | none => rfl
  | some y =>
    exfalso
    obtain ⟨fr2, rem2⟩ := y
    obtain ⟨c0, r0, hbr, hc0⟩ := matchFrameAt_head hm
    obtain ⟨sp, ds, hsp, hspall, hcn, hcnall, hmn, hmnall, hfn, hfnall,
      hds, hdsall, _, ht⟩ := hsh
    rw [ht] at hab
    have hnos := frame_nos_no_space hcnall hmnall hfnall hdsall
    cases a with
    | nil => exact absurd rfl ha
    | cons x a1 =>
      rw [List.cons_append] at hab
      injection hab with hx hab1
      cases a1 with
      | nil =>
        rw [List.nil_append] at hab1
        rw [← hab1, List.cons_append] at hbr
        injection hbr with hbad
        exact absurd hbad (by decide)
      | cons x2 a2 =>
        rw [List.cons_append] at hab1
        injection hab1 with hx2 hab2
        cases b with
        | nil => exact absurd rfl hb
        | cons b1 bs =>
          rw [List.cons_append] at hbr
          injection hbr with hb1 hbr1
          subst hb1
          cases bs with
          | nil =>
            have hend : sp ++ (fr.class_name ++ ('.' :: (fr.method_name ++ ('(' ::
                (fr.file_name ++ (':' :: (ds ++ ([')'] : List Char)))))))) =
                (sp ++ (fr.class_name ++ ('.' :: (fr.method_name ++ ('(' ::
                (fr.file_name ++ (':' :: ds))))))) ++ [')'] := by
              simp
            rw [hend] at hab2
            have e1 : ((a2 ++ (['a'] : List Char)).getLast?) = some 'a' :=
              List.getLast?_concat _
            rw [show a2 ++ (['a'] : List Char) = a2 ++ ['a'] from rfl] at e1
            have e2 : ((sp ++ (fr.class_name ++ ('.' :: (fr.method_name ++ ('(' ::
                (fr.file_name ++ (':' :: ds))))))) ++ [')']).getLast? = some ')' :=
              List.getLast?_concat _
            rw [← hab2] at e1
            rw [e2] at e1
            exact absurd (Option.some_inj.mp e1) (by decide)
          | cons b2 bs2 =>
            rw [List.cons_append] at hbr1
            injection hbr1 with hb2 hbr2
            subst hb2
            cases bs2 with
            | nil =>
              have hend : sp ++ (fr.class_name ++ ('.' :: (fr.method_name ++ ('(' ::
                  (fr.file_name ++ (':' :: (ds ++ ([')'] : List Char)))))))) =
                  (sp ++ (fr.class_name ++ ('.' :: (fr.method_name ++ ('(' ::
                  (fr.file_name ++ (':' :: ds))))))) ++ [')'] := by
                simp
              rw [hend] at hab2
              have hassoc : a2 ++ (['a', 't'] : List Char) = (a2 ++ ['a']) ++ ['t'] := by
                simp
              rw [hassoc] at hab2
              have e1 : (((a2 ++ ['a']) ++ (['t'] : List Char)).getLast?) = some 't' :=
                List.getLast?_concat _
              have e2 : ((sp ++ (fr.class_name ++ ('.' :: (fr.method_name ++ ('(' ::
                  (fr.file_name ++ (':' :: ds))))))) ++ [')']).getLast? = some ')' :=
                List.getLast?_concat _
              rw [← hab2] at e1
              rw [e2] at e1
              exact absurd (Option.some_inj.mp e1) (by decide)
            | cons b3 bs3 =>
              rw [List.cons_append] at hbr2
              injection hbr2 with hb3 _
              subst hb3
              have hassoc : a2 ++ ('a' :: 't' :: b3 :: bs3) =
                  (a2 ++ ['a', 't']) ++ (b3 :: bs3) := by
                simp
              rw [hassoc] at hab2
              rcases space_precede hnos sp hspall (a2 ++ ['a', 't']) b3 bs3 hab2 hc0 with
                h | ⟨a3, c2, ha3, hc2⟩
              · rcases List.append_eq_nil.mp h with ⟨_, h2⟩
                exact absurd h2 (by simp)
              · have hassoc2 : a2 ++ (['a', 't'] : List Char) = (a2 ++ ['a']) ++ ['t'] := by
                  simp
                have e1 : (((a2 ++ ['a']) ++ (['t'] : List Char)).getLast?) = some 't' :=
                  List.getLast?_concat _
                rw [← hassoc2] at e1
                rw [ha3] at e1
                rw [List.getLast?_concat] at e1
                have hc2t : c2 = 't' := Option.some_inj.mp e1
                rw [hc2t] at hc2
                exact absurd hc2 (by decide)

theorem FrameShape_ne_nil {fr : StackFrame} {t : List Char} (h : FrameShape fr t) :
    t ≠ [] := by
  obtain ⟨sp, ds, _, _, _, _, _, _, _, _, _, _, _, ht⟩ := h
  rw [ht]
  simp

theorem matchFrameAt_consumes {l : List Char} {fr : StackFrame} {rem : List Char}
    (h : matchFrameAt l = some (fr, rem)) : rem.length < l.length := by
  obtain ⟨t, hl, hsh⟩ := matchFrameAt_sound h
  have hpos : 0 < t.length := List.length_pos.mpr (FrameShape_ne_nil hsh)
  rw [hl, List.length_append]
  omega

theorem scanPosAux_map_snd : ∀ (fuel q : Nat) (l : List Char),
    (scanPosAux fuel q l).map Prod.snd = scanFramesAux fuel l := by
  intro fuel
  induction fuel with
  | zero => intro q l; rfl
  | succ f ih =>
    intro q l
    cases l with
    | nil => rfl
    | cons c cs =>
      cases hm : matchFrameAt (c :: cs) with
      | some y =>
        obtain ⟨fr, rem⟩ := y
        simp only [scanPosAux, scanFramesAux, hm, List.map_cons]
        rw [ih]
      | none =>
        simp only [scanPosAux, scanFramesAux, hm]
        exact ih _ _

theorem scanPosAux_lb : ∀ (fuel q : Nat) (l : List Char) (pr : Nat × StackFrame),
    pr ∈ scanPosAux fuel q l → q ≤ pr.1 := by
  intro fuel
  induction fuel with
  | zero => intro q l pr h; exact absurd h (List.not_mem_nil _)
  | succ f ih =>
    intro q l pr h
    cases l with
    | nil => exact absurd h (List.not_mem_nil _)
    | cons c cs =>
      cases hm : matchFrameAt (c :: cs) with
      | some y =>
        obtain ⟨fr, rem⟩ := y
        simp only [scanPosAux, hm] at h
        rcases List.mem_cons.mp h with h | h
        · rw [h]
        · exact Nat.le_trans (Nat.le_add_right _ _) (ih _ _ pr h)
      | none =>
        simp only [scanPosAux, hm] at h
        exact Nat.le_trans (Nat.le_add_right _ _) (ih _ _ pr h)

theorem scanPosAux_chain : ∀ (fuel q : Nat) (l : List Char),
    List.Chain' (· < ·) ((scanPosAux fuel q l).map Prod.fst) := by
  intro fuel
  induction fuel with
  | zero => intro q l; exact List.chain'_nil
  | succ f ih =>
    intro q l
    cases l with
    | nil => exact List.chain'_nil
    | cons c cs =>
      cases hm : matchFrameAt (c :: cs) with
      | some y =>
        obtain ⟨fr, rem⟩ := y
        simp only [scanPosAux, hm, List.map_cons]
        rw [List.chain'_cons']
        refine ⟨?_, ih _ _⟩
        intro b hb
        have hbmem := List.mem_of_mem_head? hb
        rcases List.mem_map.mp hbmem with ⟨pr, hpr, hfst⟩
        have hlb := scanPosAux_lb f _ rem pr hpr
        have hcons := matchFrameAt_consumes hm
        rw [← hfst]
        omega
      | none =>
        simp only [scanPosAux, hm]
        exact ih _ _

theorem scanPosAux_sound : ∀ (fuel q : Nat) (l : List Char) (pr : Nat × StackFrame),
    pr ∈ scanPosAux fuel q l →
    ∃ pre t rest, pre.length + q = pr.1 ∧ FrameShape pr.2 t ∧ l = pre ++ (t ++ rest) := by
  intro fuel
  induction fuel with
  | zero => intro q l pr h; exact absurd h (List.not_mem_nil _)
  | succ f ih =>
    intro q l pr h
    cases l with
    | nil => exact absurd h (List.not_mem_nil _)
    | cons c cs =>
      cases hm : matchFrameAt (c :: cs) with
      | some y =>
        obtain ⟨fr, rem⟩ := y
        simp only [scanPosAux, hm] at h
        obtain ⟨t0, hl0, hsh0⟩ := matchFrameAt_sound hm
        rcases List.mem_cons.mp h with h | h
        · subst h
          exact ⟨[], t0, rem, by simp, hsh0, by rw [hl0, List.nil_append]⟩
        · obtain ⟨pre, t, rest, hq, hsh, hrem⟩ := ih _ _ pr h
          refine ⟨t0 ++ pre, t, rest, ?_, hsh, ?_⟩
          · have hlen : (c :: cs).length = t0.length + rem.length := by
              rw [hl0, List.length_append]
            rw [List.length_append]
            omega
          · rw [hl0, hrem]
            simp
      | none =>
        simp only [scanPosAux, hm] at h
        obtain ⟨pre, t, rest, hq, hsh, hrem⟩ := ih _ _ pr h
        refine ⟨c :: pre, t, rest, ?_, hsh, ?_⟩
        · rw [List.length_cons]
          omega
        · rw [List.cons_append, hrem]

theorem scanPosAux_complete : ∀ (fuel : Nat), ∀ (l : List Char), l.length ≤ fuel →
    ∀ (q d : Nat) (fr : StackFrame) (pre t rest : List Char), pre.length = d →
      FrameShape fr t → l = pre ++ (t ++ rest) →
      (q + d) ∈ (scanPosAux fuel q l).map Prod.fst := by
  intro fuel
  induction fuel with
  | zero =>
    intro l hl q d fr pre t rest hpre hsh hsplit
    have hnil : l = [] := List.eq_nil_of_length_eq_zero (Nat.le_zero.mp hl)
    rw [hnil] at hsplit
    have h1 := List.append_eq_nil.mp hsplit.symm
    have h2 := List.append_eq_nil.mp h1.2
    exact absurd h2.1 (FrameShape_ne_nil hsh)
  | succ f ih =>
    intro l hl q d fr pre t rest hpre hsh hsplit
    cases l with
    | nil =>
      have h1 := List.append_eq_nil.mp hsplit.symm
      have h2 := List.append_eq_nil.mp h1.2
      exact absurd h2.1 (FrameShape_ne_nil hsh)
    | cons c cs =>
      cases hm : matchFrameAt (c :: cs) with
      | some y =>
        obtain ⟨fr0, rem⟩ := y
        obtain ⟨t0, hl0, hsh0⟩ := matchFrameAt_sound hm
        simp only [scanPosAux, hm, List.map_cons]
        cases pre with
        | nil =>
          have hd0 : d = 0 := by rw [← hpre]; rfl
          rw [hd0]
          simp
        | cons p0 ps =>
          have heq : t0 ++ rem = (p0 :: ps) ++ (t ++ rest) := hl0.symm.trans hsplit
          by_cases hdlt : (p0 :: ps).length < t0.length
          · exfalso
            have htake : t0.take (p0 :: ps).length = p0 :: ps := by
              have e1 : (t0 ++ rem).take (p0 :: ps).length = t0.take (p0 :: ps).length :=
                List.take_append_of_le_length (Nat.le_of_lt hdlt)
              rw [heq, List.take_left] at e1
              exact e1.symm
            have ht0 : t0 = (p0 :: ps) ++ t0.drop (p0 :: ps).length := by
              have e := (List.take_append_drop (p0 :: ps).length t0).symm
              rw [htake] at e
              exact e
            have hbne : t0.drop (p0 :: ps).length ≠ [] := by
              intro hc
              rw [List.drop_eq_nil_iff] at hc
              omega
            have hcancel : t0.drop (p0 :: ps).length ++ rem = t ++ rest := by
              have e2 : (p0 :: ps) ++ (t0.drop (p0 :: ps).length ++ rem) =
                  (p0 :: ps) ++ (t ++ rest) := by
                rw [← List.append_assoc, ← ht0]
                exact heq
              exact List.append_cancel_left e2
            have hnone := matchFrameAt_no_inner hsh0 ht0 (by simp) hbne rem
            rw [hcancel] at hnone
            rw [matchFrameAt_complete hsh rest] at hnone
            exact absurd hnone (by simp)
          · have hle : t0.length ≤ (p0 :: ps).length := Nat.le_of_not_lt hdlt
            have htake : (p0 :: ps).take t0.length = t0 := by
              have e1 : ((p0 :: ps) ++ (t ++ rest)).take t0.length =
                  (p0 :: ps).take t0.length := List.take_append_of_le_length hle
              rw [← heq, List.take_left] at e1
              exact e1.symm
            have hpre2 : (p0 :: ps) = t0 ++ (p0 :: ps).drop t0.length := by
              have e := (List.take_append_drop t0.length (p0 :: ps)).symm
              rw [htake] at e
              exact e
            have hrem : rem = (p0 :: ps).drop t0.length ++ (t ++ rest) := by
              have e2 : t0 ++ rem = t0 ++ ((p0 :: ps).drop t0.length ++ (t ++ rest)) := by
                rw [← List.append_assoc, ← hpre2]
                exact heq
              exact List.append_cancel_left e2
            have hlen : (c :: cs).length = t0.length + rem.length := by
              rw [hl0, List.length_append]
            have hremfuel : rem.length ≤ f := by
              have := matchFrameAt_consumes hm
              have hl2 : (c :: cs).length ≤ f + 1 := hl
              omega
            have hdrop : ((p0 :: ps).drop t0.length).length = d - t0.length := by
              rw [List.length_drop, hpre]
            have hrec := ih rem hremfuel (q + ((c :: cs).length - rem.length))
              (d - t0.length) fr ((p0 :: ps).drop t0.length) t rest hdrop hsh hrem
            have hdge : t0.length ≤ d := by
              rw [← hpre]
              exact hle
            have harith : q + d = q + ((c :: cs).length - rem.length) + (d - t0.length) := by
              omega
            rw [harith]
            exact List.mem_cons_of_mem _ hrec
      | none =>
        simp only [scanPosAux, hm]
        cases pre with
        | nil =>
          exfalso
          rw [List.nil_append] at hsplit
          have hcomp := matchFrameAt_complete hsh rest
          rw [← hsplit, hm] at hcomp
          exact absurd hcomp (by simp)
        | cons p0 ps =>
          rw [List.cons_append] at hsplit
          injection hsplit with _ hcs
          have hps : ps.length = d - 1 := by
            rw [← hpre]
            rfl
          have hrec := ih cs (by
            have : (c :: cs).length ≤ f + 1 := hl
            rw [List.length_cons] at this
            omega) (q + 1) (d - 1) fr ps t rest hps hsh hcs
          have hd1 : 1 ≤ d := by
            rw [← hpre]
            simp
          have harith : q + d = (q + 1) + (d - 1) := by omega
          rw [harith]
          exact hrec

/-- C2: `parse_stacktrace` reports exactly the frame-shaped substrings of the
input, in text order. There is a position/frame list whose frames are exactly
the returned `frames` in order, whose positions are strictly increasing (the
original top-to-bottom order), such that each listed frame is the frame-shape
match starting at its position, and every position where a frame-shape match
starts is listed — so a text with exactly N frame-shape match positions yields
exactly N frames, the first reported frame being the topmost (throw-site)
match. In particular, on the concrete NullPointerException trace it returns
exception type `java.lang.NullPointerException`, three frames, and first frame
`com.example.parser.JsonParser.parse(JsonParser.java:42)`. -/
theorem claim_C2 (l : List Char) :
    (∃ pws : List (Nat × StackFrame),
      (parse_stacktrace l).frames = pws.map Prod.snd ∧
      List.Chain' (· < ·) (pws.map Prod.fst) ∧
      (∀ pr ∈ pws, FrameAtPos l pr.1 pr.2) ∧
      (∀ d, StartsFrameAt l d → d ∈ pws.map Prod.fst)) ∧
    (parse_stacktrace npeTrace).exception_type = "java.lang.NullPointerException".data ∧
    (parse_stacktrace npeTrace).frames.length = 3 ∧
    (parse_stacktrace npeTrace).frames.head? =
      some ⟨"com.example.parser.JsonParser".data, "parse".data,
        "JsonParser.java".data, 42⟩ := by
  refine ⟨⟨scanPosAux l.length 0 l, (scanPosAux_map_snd l.length 0 l).symm,
    scanPosAux_chain l.length 0 l, ?_, ?_⟩, by decide, by decide, by decide⟩
  · intro pr hpr
    obtain ⟨pre, t, rest, hq, hsh, hsplit⟩ := scanPosAux_sound l.length 0 l pr hpr
    exact ⟨pre, t, rest, by omega, hsh, hsplit⟩
  · intro d hd
    obtain ⟨fr, pre, t, rest, hpre, hsh, hsplit⟩ := hd
    have hmem := scanPosAux_complete l.length l (Nat.le_refl _) 0 d fr pre t rest
      hpre hsh hsplit
    simpa using hmem
